import Mathlib

/-!
Verification of the TECO text-editor interpreter (teco.py) against its
natural-language specification.

The Python source is shallowly embedded: text is `List Char` (Python
strings are sequences of code points), Python `int` is `Int`, class
instances become Lean structures with explicit state passing, raised
TECO errors become an explicit error component of the result, and each
command handler becomes a function from the interpreter state to a new
state paired with an optional error.  Mutations the source performs
before raising an error are kept (the returned state is the state at
the moment the exception propagates); constructing a TECO error object
calls `teco.clearargs()` in the source, which the embedding reproduces.
-/

namespace Teco

/-- The escape character, `esc = chr 27` in the source. -/
def escCh : Char := Char.ofNat 27

/-- The rubout character, `rub = chr 127` in the source. -/
def rubCh : Char := Char.ofNat 127

/-- The line-feed character `lf`. -/
def lfCh : Char := Char.ofNat 10

/-- TECO error kinds (class names derived from `err` in the source),
restricted to the ones the embedded operations can raise.  `pyErr`
stands for a plain Python exception escaping (e.g. an unbound local or
a `TypeError`), which is not a TECO error. -/
inductive Err where
  | ill | pop | srh | pes | iqc | iqn | iln | nau | naq | utc
  | mrp | mlp | nap | isa | pyErr
  deriving DecidableEq, Repr

/-! ## The printable mapper

Source lines 143-158: `_printre = re.compile ("[\000-\007\016-\037\177]")`,
`_printdict` maps each control character `c < 0o40` to `'^' + chr (c + 64)`,
then overrides `esc` to `"$"` and `rub` to `"^?"`; `printable` substitutes
`_printdict[m.group (0)]` for every regex match. -/

/-- Whether a character is matched by `_printre`, i.e. the class
`[\000-\007\016-\037\177]` (octal): codes 0-7, 14-31, and 127. -/
def printreMatch (c : Char) : Bool :=
  c.toNat ≤ 7 ∨ (14 ≤ c.toNat ∧ c.toNat ≤ 31) ∨ c.toNat = 127

/-- The replacement dictionary `_printdict`: `'^' + chr (c + 64)` for
control codes below 0o40, with `esc` overridden to `"$"` and `rub`
mapped to `"^?"`. -/
def printdict (c : Char) : List Char :=
  if c = escCh then [Char.ofNat 36]
  else if c = rubCh then [Char.ofNat 94, Char.ofNat 63]
  else [Char.ofNat 94, Char.ofNat (c.toNat + 64)]

/-- `printable`: substitute `_printdict` for every `_printre` match,
leaving all other characters in place. -/
def printable (s : List Char) : List Char :=
  s.flatMap (fun c => if printreMatch c then printdict c else [c])

/-! ## Line navigation helpers

`str.index (lf, pos)` finds the first line feed at index `≥ pos`;
`str.rindex (lf, 0, pos)` finds the last line feed at index `< pos`. -/

/-- Index of the first occurrence of `c` in `l`, if any. -/
def findIdx (c : Char) : List Char → Option Nat
  | [] => none
  | a :: rest => if a = c then some 0 else (findIdx c rest).map (· + 1)

/-- `text.index (c, pos)` in Python: index of the first occurrence of
`c` at position `≥ pos`, or `none` (the source catches `ValueError`). -/
def findFrom (text : List Char) (c : Char) (pos : Nat) : Option Nat :=
  (findIdx c (text.drop pos)).map (· + pos)

/-- Index of the last occurrence of `c` in `l`, if any. -/
def rfindIdx (c : Char) : List Char → Option Nat
  | [] => none
  | a :: rest =>
    match rfindIdx c rest with
    | some i => some (i + 1)
    | none => if a = c then some 0 else none

/-- `text.rindex (c, 0, pos)` in Python: index of the last occurrence
of `c` at position `< pos`, or `none`. -/
def rfindBefore (text : List Char) (c : Char) (pos : Nat) : Option Nat :=
  rfindIdx c (text.take pos)

/-- The forward loop of `buffer.line` (source lines 3030-3037): starting
at `pos`, repeatedly step to one past the next line feed; if none is
found return the buffer length. -/
def lineFwd (text : List Char) (pos : Nat) : Nat → Nat
  | 0 => pos
  | n + 1 =>
    match findFrom text lfCh pos with
    | some i => lineFwd text (i + 1) n
    | none => text.length

/-- The backward loop of `buffer.line` (source lines 3038-3045): starting
at `pos`, repeatedly step to the previous line feed (strictly before the
current position); if none is found return 0, and finally return one past
the line feed reached. -/
def lineBwd (text : List Char) (pos : Nat) : Nat → Nat
  | 0 => pos + 1
  | n + 1 =>
    match rfindBefore text lfCh pos with
    | some i => lineBwd text i n
    | none => 0

/-- `buffer.line (linecnt)` (source lines 3028-3045), as a function of
the buffer text and of `dot`.  For `linecnt > 0` the forward loop runs
`linecnt` times; for `linecnt ≤ 0` the backward loop runs
`1 - linecnt` times. -/
def line (text : List Char) (dot : Nat) (linecnt : Int) : Nat :=
  if 0 < linecnt then lineFwd text dot linecnt.toNat
  else lineBwd text dot (1 - linecnt).toNat

/-! Declarative description of line feeds, used to state what `line`
computes. -/

/-- The ascending list of indices of `c` in `l`. -/
def idxsOf (c : Char) : List Char → List Nat
  | [] => []
  | a :: rest =>
    if a = c then 0 :: (idxsOf c rest).map (· + 1)
    else (idxsOf c rest).map (· + 1)

/-- The ascending list of line-feed positions at index `≥ pos`. -/
def lfsFrom (text : List Char) (pos : Nat) : List Nat :=
  (idxsOf lfCh text).filter (fun i => pos ≤ i)

/-- The descending list of line-feed positions at index `< pos`. -/
def lfsBefore (text : List Char) (pos : Nat) : List Nat :=
  ((idxsOf lfCh text).filter (fun i => i < pos)).reverse

/-- What the specification says `line` returns, in declarative form.
For `k > 0`: one past the `k`-th line feed at or after `dot`, or the
buffer length if fewer than `k` line feeds follow.  For `k ≤ 0`: one
past the `(|k|+1)`-th line feed strictly before `dot`, counting
backwards (i.e. the start of the line `|k|` lines above the current
one), or 0 if fewer line feeds precede `dot`. -/
def lineSpec (text : List Char) (dot : Nat) (k : Int) : Nat :=
  if 0 < k then
    match (lfsFrom text dot).get? (k.toNat - 1) with
    | some i => i + 1
    | none => text.length
  else
    match (lfsBefore text dot).get? (-k).toNat with
    | some i => i + 1
    | none => 0

/-! ## Expression evaluation: `doop`

Source lines 347-371.  The expression state fields used by `doop` are
`arg` (accumulated left-hand value), `num` (current term) and `op`
(pending operator); each is `None` or a value, modelled with `Option`.
Python `//` is floor division, modelled by `Int.fdiv`; Python `&`/`|`
on arbitrary-precision integers are two's-complement, modelled by
`Int.land`/`Int.lor`. -/

structure ExprState where
  arg : Option Int
  num : Option Int
  op : Option Char
  deriving DecidableEq, Repr

/-- `teco.clearargs` (source lines 515-523) restricted to the fields of
`ExprState`: `arg`, `num` and `op` are all reset to `None`.  Raising a
TECO error runs this, because `err.__init__` (source lines 168-171)
calls `teco.clearargs ()` before the exception propagates. -/
def clearargsExpr : ExprState := ⟨none, none, none⟩

/-- `teco.doop (c)` (source lines 347-371).  Returns the state after the
call together with the raised error, if any; on the `ILL` raising paths
the state is `clearargsExpr`, because constructing the error object
calls `teco.clearargs ()` (source lines 168-171, 515-523) before the
exception propagates. -/
def doop (st : ExprState) (c : Char) : ExprState × Option Err :=
  match st.op with
  | none => ({ st with arg := st.num }, none)
  | some o =>
    let st := if (o = '+' ∨ o = '-') ∧ st.arg = none then { st with arg := some 0 } else st
    match st.num with
    | none => (clearargsExpr, some .ill)
    | some nv =>
      match st.arg with
      | none =>
        -- Python would evaluate `None op int` and die with a TypeError,
        -- which is not a TECO `err`, so nothing clears the state;
        -- this state is unreachable through `operator`/`digit`.
        (st, some .pyErr)
      | some a =>
        if o = '+' then ({ st with arg := some (a + nv) }, none)
        else if o = '-' then ({ st with arg := some (a - nv) }, none)
        else if o = '*' then ({ st with arg := some (a * nv) }, none)
        else if o = '/' then
          if nv = 0 then (clearargsExpr, some .ill)
          else ({ st with arg := some (Int.fdiv a nv) }, none)
        else if o = '&' then ({ st with arg := some (Int.land a nv) }, none)
        else if o = '#' then ({ st with arg := some (Int.lor a nv) }, none)
        else (st, none)

/-! ## Conditional tests: the `"` command

Source lines 1981-2014 (`command_level.char042`).  The argument `n` is
turned into the one-character string `chr (n)` when `0 ≤ n < 0x110000`
and into the empty string otherwise; the character-class tests are
Python string predicates applied to that string.  The predicates are
modelled for the strings that can arise here: the empty string and
single characters (for code points Lean's `Char` cannot represent --
lone surrogates -- `Char.ofNat` degrades to NUL, on which every
predicate used below agrees with Python's verdict on the surrogate). -/

/-- Python `str.isalpha` on a string of length at most one. -/
def pyIsAlpha (s : List Char) : Bool := !s.isEmpty && s.all Char.isAlpha

/-- Python `str.isalnum` on a string of length at most one. -/
def pyIsAlnum (s : List Char) : Bool := !s.isEmpty && s.all Char.isAlphanum

/-- Python `str.isdigit` on a string of length at most one. -/
def pyIsDigit (s : List Char) : Bool := !s.isEmpty && s.all Char.isDigit

/-- Python `str.islower` on a string of length at most one: at least one
cased character, and no cased character uppercase. -/
def pyIsLower (s : List Char) : Bool :=
  s.any Char.isLower && s.all (fun c => !c.isUpper)

/-- Python `str.isupper` on a string of length at most one. -/
def pyIsUpper (s : List Char) : Bool :=
  s.any Char.isUpper && s.all (fun c => !c.isLower)

/-- The string `nc` built by `char042`: `chr (n)` if `0 ≤ n < 0x110000`,
else the empty string. -/
def condChr (n : Int) : List Char :=
  if 0 ≤ n ∧ n < 0x110000 then [Char.ofNat n.toNat] else []

/-- The `elif` chain of `char042` (source lines 1990-2011): given the
committed argument `n`, the string `nc` built from it, and the
lowercased test letter, produce the truth value of the condition, or
the `IQC` error for an unknown letter.  Python `nc in "$._"` is a
substring test, which the empty string passes vacuously; it is
modelled by the decidable `List.IsInfix` test. -/
def condTest (n : Int) (nc : List Char) (c : Char) : Except Err Bool :=
  if c = 'a' then .ok (pyIsAlpha nc)
  else if c = 'c' then .ok (pyIsAlnum nc || decide (nc <:+: ['$', '.', '_']))
  else if c = 'd' then .ok (pyIsDigit nc)
  else if c = 'e' ∨ c = 'f' ∨ c = 'u' ∨ c = '=' then .ok (decide (n = 0))
  else if c = 'g' ∨ c = '>' then .ok (decide (0 < n))
  else if c = 'l' ∨ c = 's' ∨ c = 't' ∨ c = '<' then .ok (decide (n < 0))
  else if c = 'n' then .ok (decide (n ≠ 0))
  else if c = 'r' then .ok (pyIsAlnum nc)
  else if c = 'v' then .ok (pyIsLower nc)
  else if c = 'w' then .ok (pyIsUpper nc)
  else .error .iqc

/-- The test-selection part of `char042` (source lines 1984-2011):
build `nc` from the argument, lowercase the test letter, and evaluate
the condition. -/
def condOf (n : Int) (t : Char) : Except Err Bool :=
  condTest n (condChr n) t.toLower

/-! ## Registers

A register (`class qreg`, source lines 770-791) is a pair of a number
and a text.  Register names are a single alphanumeric character
(global) or `.` plus an alphanumeric character (local); `qdict`
(source lines 1725-1740) selects the global or per-level dictionary
and raises `IQN` for invalid names.  Python registers are mutable
objects stored by reference in the dictionaries and on the push-down
stack, so the embedding keeps an explicit heap: dictionaries and the
stack hold heap addresses, and `copy.copy` allocates a fresh cell. -/

structure QregV where
  num : Int
  text : List Char
  deriving DecidableEq, Repr

/-- A parsed Q-register name: the character after the optional `.`
prefix, tagged with which dictionary the prefix selects. -/
inductive QName where
  | glob (c : Char)
  | loc (c : Char)
  deriving DecidableEq, Repr

/-- The validity test performed by `qdict`: the name character must be
alphanumeric (source lines 1735-1740). -/
def qvalid : QName → Bool
  | .glob c => c.isAlphanum
  | .loc c => c.isAlphanum

/-- Association-list lookup for the register dictionaries. -/
def alookup : List (Char × Nat) → Char → Option Nat
  | [], _ => none
  | (k, v) :: rest, c => if k = c then some v else alookup rest c

/-- Association-list overwrite-or-append for the register dictionaries. -/
def aset : List (Char × Nat) → Char → Nat → List (Char × Nat)
  | [], c, a => [(c, a)]
  | (k, v) :: rest, c, a =>
    if k = c then (c, a) :: rest else (k, v) :: aset rest c a

/-! ## The interpreter state

One record collects the fields of `teco`, `buffer` and `command_level`
that the embedded commands touch.  `nextCmd` is the character
`peeknextcmd` would return (`none` at end of the command string);
`inIter` is whether `self.iterstack` is non-empty; `msgs` collects
text printed to the terminal; `didSemi` records that the search
failure path simulated a `;` command (`self.do (';')`);
`ranAutoverify` records that `teco.autoverify (es)` was invoked. -/

structure TS where
  text : List Char
  dot : Int
  laststringlen : Int
  lastsearch : List Char
  num : Option Int
  colons : Nat
  atmod : Bool
  edflag : Int
  esflag : Int
  inIter : Bool
  nextCmd : Option Char
  msgs : List (List Char)
  didSemi : Bool
  ranAutoverify : Bool
  heap : List QregV
  globals : List (Char × Nat)
  locals : List (Char × Nat)
  qstack : List Nat
  deriving DecidableEq, Repr

/-- `end` of the buffer: the text length. -/
def endPos (st : TS) : Int := st.text.length

/-- `clearmods` (source lines 509-513). -/
def clearmods (st : TS) : TS := { st with colons := 0, atmod := false }

/-- `clearargs` (source lines 515-523).  Of the expression state only
`num` is part of `TS` (the remaining fields live in `ExprState` above,
used by `doop`); the modifier flags are cleared as in the source. -/
def clearargs (st : TS) : TS := { st with num := none, colons := 0, atmod := false }

/-- `setval` (source lines 455-459): store a command result value into
the expression state and clear the modifiers. -/
def setval (st : TS) (v : Int) : TS := clearmods { st with num := some v }

/-- `buffer.goto` (source lines 3000-3003): clamp the requested
position into `[0, end]` and set `dot` to it. -/
def goto (st : TS) (pos : Int) : TS :=
  let p := if pos < 0 then 0 else if pos > endPos st then endPos st else pos
  { st with dot := p }

/-- `buffer.insert` (source lines 2992-2995): splice the text in at
`dot`, advance `dot` past it and set `laststringlen` to the negated
length.  Call sites maintain `0 ≤ dot`, matching the `toNat`
conversion. -/
def insert (st : TS) (s : List Char) : TS :=
  { st with
    text := st.text.take st.dot.toNat ++ s ++ st.text.drop st.dot.toNat,
    dot := st.dot + s.length,
    laststringlen := -(s.length : Int) }

/-- `buffer.delete` (source lines 2997-2998): remove `n` characters
after `dot`.  Call sites establish `0 ≤ dot` and `0 ≤ n`, matching the
`toNat` conversions. -/
def bufdelete (st : TS) (n : Int) : TS :=
  { st with text := st.text.take st.dot.toNat ++ st.text.drop (st.dot + n).toNat }

/-! Register access on the interpreter state. -/

/-- Read a heap cell (addresses handed out by `qregGet` are always in
range; the default is never reached from the commands below). -/
def heapGet (st : TS) (a : Nat) : QregV := st.heap.getD a ⟨0, []⟩

/-- Overwrite a heap cell: the in-place mutation of a Python `qreg`
object. -/
def heapSet (st : TS) (a : Nat) (v : QregV) : TS :=
  { st with heap := st.heap.set a v }

/-- Look a name up in the dictionary `qdict` selects for it. -/
def qregLookup (st : TS) (q : QName) : Option Nat :=
  match q with
  | .glob c => alookup st.globals c
  | .loc c => alookup st.locals c

/-- Bind a name to a register object (dictionary assignment). -/
def qregBind (st : TS) (q : QName) (a : Nat) : TS :=
  match q with
  | .glob c => { st with globals := aset st.globals c a }
  | .loc c => { st with locals := aset st.locals c a }

/-- `command_level.qreg` (source lines 1742-1754) after name
validation: return the register's address, creating the register with
number 0 and empty text when the name is not yet bound. -/
def qregGet (st : TS) (q : QName) : TS × Nat :=
  match qregLookup st q with
  | some a => (st, a)
  | none =>
    let a := st.heap.length
    (qregBind { st with heap := st.heap ++ [⟨0, []⟩] } q a, a)

/-- The (number, text) pair a register name currently denotes, taking
the creation-on-access default for unbound names. -/
def qview (st : TS) (q : QName) : QregV :=
  match qregLookup st q with
  | some a => heapGet st a
  | none => ⟨0, []⟩

/-- The register-value mutators `setnum`, `setstr` and `appendstr`
(source lines 781-791), each applied to the register a name resolves
to (resolving creates the register, as in `command_level.qreg`). -/
inductive RegOp where
  | setnum (q : QName) (v : Int)
  | setstr (q : QName) (s : List Char)
  | appendstr (q : QName) (s : List Char)
  deriving DecidableEq, Repr

/-- Apply one register-value mutation. -/
def applyRegOp (st : TS) : RegOp → TS
  | .setnum q v =>
    let p := qregGet st q
    heapSet p.1 p.2 { heapGet p.1 p.2 with num := v }
  | .setstr q s =>
    let p := qregGet st q
    heapSet p.1 p.2 { heapGet p.1 p.2 with text := s }
  | .appendstr q s =>
    let p := qregGet st q
    heapSet p.1 p.2 { heapGet p.1 p.2 with text := (heapGet p.1 p.2).text ++ s }

/-- `[` -- `command_level.char133` (source lines 2831-2838): push a
shallow copy of the named register onto the Q-register stack.  The
copy is a fresh heap cell holding the current value; `list.append`
puts it at the end of the stack. -/
def pushCmd (st : TS) (q : QName) : TS × Option Err :=
  if qvalid q then
    let p := qregGet st q
    let st := p.1
    let v := heapGet st p.2
    ({ st with heap := st.heap ++ [v], qstack := st.qstack ++ [st.heap.length] }, none)
  else (clearargs st, some .iqn)

/-- `]` -- `command_level.char135` (source lines 2876-2890): pop the
Q-register stack into the named register (`setqreg` rebinds the name
to the popped object).  On an empty stack, a colon modifier yields the
value 0; otherwise error `PES`.  Raising a TECO error clears the
expression state (`err.__init__`). -/
def popCmd (st : TS) (q : QName) : TS × Option Err :=
  let colon := st.colons ≠ 0
  match st.qstack.getLast? with
  | some a =>
    let st := { st with qstack := st.qstack.dropLast }
    if qvalid q then
      (if colon then setval (qregBind st q a) (-1) else qregBind st q a, none)
    else (clearargs st, some .iqn)
  | none =>
    if colon then (setval st 0, none)
    else (clearargs st, some .pes)

/-- `Q` -- `command_level.q` (source lines 2626-2648): with a colon,
return the text length; with an argument, return the character code at
that offset of the text (or -1 out of range); otherwise return the
numeric part.  The optional argument is passed in already committed
(`getoptarg`). -/
def qCmd (st : TS) (q : QName) (n : Option Int) : TS × Option Err :=
  let colon := st.colons ≠ 0
  if qvalid q then
    let p := qregGet st q
    let st := p.1
    let v := heapGet st p.2
    if colon then (setval (clearmods st) v.text.length, none)
    else
      match n with
      | some i =>
        let st := clearargs st
        let r : Int :=
          if 0 ≤ i ∧ i < (v.text.length : Int) then
            ((v.text.getD i.toNat (Char.ofNat 0)).toNat : Int)
          else -1
        (setval st r, none)
      | none => (setval (clearmods st) v.num, none)
  else (clearargs st, some .iqn)

/-- `G` -- `command_level.g` (source lines 2500-2514) for an ordinary
register name (the pseudo-registers `*` and `_` read other state and
are not involved in the claims): fetch the register text and either
print it (colon) or insert it into the buffer, then clear the
expression state. -/
def gCmd (st : TS) (q : QName) : TS × Option Err :=
  let colon := st.colons ≠ 0
  if qvalid q then
    let p := qregGet st q
    let st := p.1
    let s := (heapGet st p.2).text
    if colon then (clearargs { st with msgs := st.msgs ++ [s] }, none)
    else (clearargs (insert st s), none)
  else (clearargs st, some .iqn)

/-- `U` -- `command_level.u` (source lines 2707-2712): set the numeric
part of the named register; a missing argument raises `NAU`
(`getarg (c, NAU)`). -/
def uCmd (st : TS) (q : QName) (n : Option Int) : TS × Option Err :=
  if qvalid q then
    let p := qregGet st q
    let st := clearargs p.1
    match n with
    | none => (st, some .nau)
    | some v => (heapSet st p.2 { heapGet st p.2 with num := v }, none)
  else (clearargs st, some .iqn)

/-! ## The search engine

`command_level.search` (source lines 1588-1699), modelled for literal
search strings: `str2re` quotes ordinary characters so the compiled
pattern matches them verbatim, and the string-build expansion
(`strbuild`) is the identity on strings without build escapes; exact
case matching (the `^X` flag non-zero) is assumed.  The paging
callback `nextpage` is `None` (as for `S`, `FB`, `FC`, `FS`), so the
`nextpage and not eof` retry branch never runs.  The match engine
itself (`re.search` / `re.match`) is embedded as literal-substring
search. -/

/-- Position of the first occurrence of `pat` as a prefix of a suffix
of `l` (so `findSub pat l = some i` means `pat` matches at index `i`).
The empty pattern matches at 0. -/
def findSub (pat : List Char) : List Char → Option Nat
  | [] => if pat.isEmpty then some 0 else none
  | c :: rest =>
    if pat.isPrefixOf (c :: rest) then some 0
    else (findSub pat rest).map (· + 1)

/-- `re.search (buf, pos)` for a literal pattern: the first match
starting at index `≥ pos`, as a (start, end) pair.  `re` clamps `pos`
into `[0, len]` (an empty pattern still matches at the end). -/
def reSearch (pat text : List Char) (pos : Nat) : Option (Nat × Nat) :=
  let p := min pos text.length
  (findSub pat (text.drop p)).map (fun i => (i + p, i + p + pat.length))

/-- `re.match (buf, pos)` for a literal pattern: the anchored match at
`pos` (clamped into `[0, len]` as `re` does), if any. -/
def reMatch (pat text : List Char) (pos : Nat) : Option (Nat × Nat) :=
  let p := min pos text.length
  if pat.isPrefixOf (text.drop p) then some (p, p + pat.length) else none

/-- How `command_level.search` (or one of its loops) ended. -/
inductive SearchCode where
  | found      -- the method returned True
  | notfound   -- the method returned False
  | srhFail    -- the method raised SRH
  | pyUnbound  -- Python would die on the unbound `match` local (n = 0)
  deriving DecidableEq, Repr

/-- The success epilogue (source lines 1693-1699): move `dot` to the
match end, set `laststringlen` to start minus end, set the value `-1`
if colon-modified or a `;` follows inside an iteration, and run the
auto-verify routine governed by `es`. -/
def searchSucceed (st : TS) (colon : Bool) (ms me : Nat) : TS :=
  let st := goto st me
  let st := { st with laststringlen := (ms : Int) - (me : Int) }
  let st := if colon ∨ (st.inIter ∧ st.nextCmd = some ';') then setval st (-1) else st
  { st with ranAutoverify := true }

/-- The text of the warning printed when a search fails inside an
iteration: `%Search fail in iter`. -/
def searchFailMsg : List Char :=
  ['%', 'S', 'e', 'a', 'r', 'c', 'h', ' ', 'f', 'a', 'i', 'l', ' ', 'i', 'n', ' ', 'i', 't', 'e', 'r']

/-- The failure path (source lines 1675-1688): optionally reset `dot`
to 0, then return 0 (colon), or exit the iteration (printing the
warning and simulating a `;` unless the next command already is `;`),
or raise `SRH` (which clears the expression state). -/
def searchFail (st : TS) (colon topiffail : Bool) : TS × SearchCode :=
  let st := if topiffail ∧ Int.land st.edflag 16 = 0 then goto st 0 else st
  if colon then (setval st 0, .notfound)
  else if st.inIter then
    let st := setval st 0
    if st.nextCmd ≠ some ';' then
      ({ st with msgs := st.msgs ++ [searchFailMsg], didSemi := true }, .notfound)
    else (st, .notfound)
  else (clearargs st, .srhFail)

/-- Keep a match only if its start lies in `[start, endp]` (source
line 1663). -/
def boundOk (start endp : Int) : Option (Nat × Nat) → Option (Nat × Nat)
  | some (ms, me) => if start ≤ (ms : Int) ∧ (ms : Int) ≤ endp then some (ms, me) else none
  | none => none

/-- The forward search loop (source lines 1639-1689 with `n > 0`):
each of the `rep` iterations searches from `pos` (which the source
never advances), keeps the match if it starts inside the window, and
otherwise takes the failure path. -/
def searchFwdLoop (pat : List Char) (start endp : Int) (colon topiffail : Bool)
    (st : TS) (pos : Int) (last : Option (Nat × Nat)) : Nat → TS × SearchCode
  | 0 =>
    match last with
    | some (ms, me) => (searchSucceed st colon ms me, .found)
    | none => (st, .pyUnbound)
  | rep + 1 =>
    match boundOk start endp (reSearch pat st.text pos.toNat) with
    | some (ms, me) => searchFwdLoop pat start endp colon topiffail st pos (some (ms, me)) rep
    | none => searchFail st colon topiffail

/-- The acceptance test for a backward-search candidate (source line
1653): `not (laststart and tmatch.end () > laststart)`.  Note the
Python truthiness quirk: a recorded `laststart` of 0 is falsy, so any
candidate is accepted then. -/
def lsOk (laststart : Option Nat) (mend : Nat) : Bool :=
  match laststart with
  | none => true
  | some l => if l = 0 then true else decide (mend ≤ l)

/-- The inner slide of the backward search (source lines 1652-1660):
starting at `pos`, step backwards one position at a time until an
anchored match passes the acceptance test; at position 0 with no
acceptable match, give up (`match = None`).  Returns the recorded
match and the position it was recorded at. -/
def slide (pat text : List Char) (laststart : Option Nat) : Nat → Option (Nat × Nat) × Nat
  | 0 =>
    match reMatch pat text 0 with
    | some (ms, me) => if lsOk laststart me then (some (ms, me), 0) else (none, 0)
    | none => (none, 0)
  | p + 1 =>
    match reMatch pat text (p + 1) with
    | some (ms, me) =>
      if lsOk laststart me then (some (ms, me), p + 1) else slide pat text laststart p
    | none => slide pat text laststart p

/-- The backward search loop (`n < 0`): each of the `rep` iterations
slides to the nearest acceptable anchored match at or below `pos`,
applies the window check, and records the match (and its start, for
the overlap test of later iterations) or takes the failure path. -/
def searchRevLoop (pat : List Char) (start endp : Int) (colon topiffail : Bool)
    (st : TS) (laststart : Option Nat) (pos : Nat) (last : Option (Nat × Nat)) :
    Nat → TS × SearchCode
  | 0 =>
    match last with
    | some (ms, me) => (searchSucceed st colon ms me, .found)
    | none => (st, .pyUnbound)
  | rep + 1 =>
    let s := slide pat st.text laststart pos
    match boundOk start endp s.1 with
    | some (ms, me) =>
      searchRevLoop pat start endp colon topiffail st (some ms) s.2 (some (ms, me)) rep
    | none => searchFail st colon topiffail

/-- `command_level.search` (source lines 1588-1699) with no paging
callback: an empty search string reuses `lastsearch`, a non-empty one
is recorded as the new `lastsearch`; then the forward or backward loop
runs `abs (n)` times. -/
def search (st : TS) (s : List Char) (n : Int) (start endp : Int)
    (colon : Bool) (topiffail : Bool) : TS × SearchCode :=
  let p := if s.isEmpty then (st, st.lastsearch) else ({ st with lastsearch := s }, s)
  let st := p.1
  let pat := p.2
  if n < 0 then searchRevLoop pat start endp colon topiffail st none endp.toNat none n.natAbs
  else searchFwdLoop pat start endp colon topiffail st start none n.natAbs

/-! ## The command step

The commands the claims mention, as a step function on the state.
Numeric arguments are passed in already committed (the work of
`getarg`/`getargs`/`getoptarg`); a `getarg` call that supplies a
default clears the expression state, which the steps reproduce. -/

/-- `teco.lineargs` (source lines 490-507): resolve the argument pair
of a line-oriented command to a character range, raising `POP` for a
bad explicit range. -/
def lineargs (st : TS) (m n : Option Int) : (TS × Int × Int) × Option Err :=
  let nv := n.getD 1
  match m with
  | none =>
    if 0 < nv then ((st, st.dot, (line st.text st.dot.toNat nv : Int)), none)
    else ((st, (line st.text st.dot.toNat nv : Int), st.dot), none)
  | some mv =>
    if mv < 0 ∨ nv > endPos st ∨ mv > nv then ((clearargs st, 0, 0), some .pop)
    else ((st, mv, nv), none)

/-- The embedded commands. -/
inductive Cmd where
  | cmdC (n : Option Int)
  | cmdR (n : Option Int)
  | cmdJ (n : Option Int)
  | cmdL (n : Option Int)
  | cmdI (s : List Char)
  | cmdD (m n : Option Int)
  | cmdK (m n : Option Int)
  | cmdU (q : QName) (n : Option Int)
  | cmdQ (q : QName) (n : Option Int)
  | cmdG (q : QName)
  | cmdPush (q : QName)
  | cmdPop (q : QName)
  | cmdS (s : List Char) (n : Int) (start endp : Int) (colon : Bool) (topiffail : Bool)
  deriving DecidableEq, Repr

/-- `C` -- `command_level.c` (source lines 2188-2195): move forward
`n` (default 1) characters; a target outside `[0, end]` raises `POP`
with `dot` unchanged. -/
def stepC (st : TS) (n : Option Int) : TS × Option Err :=
  let st := clearargs st
  let newpos := st.dot + n.getD 1
  if 0 ≤ newpos ∧ newpos ≤ endPos st then (goto st newpos, none)
  else (st, some .pop)

/-- `R` -- `command_level.r` (source lines 2650-2658): move backward,
with the same bound check as `C`. -/
def stepR (st : TS) (n : Option Int) : TS × Option Err :=
  let st := clearargs st
  let newpos := st.dot - n.getD 1
  if 0 ≤ newpos ∧ newpos ≤ endPos st then (goto st newpos, none)
  else (st, some .pop)

/-- `J` -- `command_level.j` (source lines 2539-2542): `goto` the
argument (default 0); `buffer.goto` clamps, so no error is possible. -/
def stepJ (st : TS) (n : Option Int) : TS × Option Err :=
  let st := clearargs st
  (goto st (n.getD 0), none)

/-- `L` -- `command_level.l` (source lines 2553-2556): `goto` the
result of `buffer.line`. -/
def stepL (st : TS) (n : Option Int) : TS × Option Err :=
  let st := clearargs st
  (goto st (line st.text st.dot.toNat (n.getD 1) : Int), none)

/-- `I` -- `command_level.i` (source lines 2524-2537), for the plain
string-insert form (no numeric argument). -/
def stepI (st : TS) (s : List Char) : TS × Option Err :=
  (clearargs (insert st s), none)

/-- `D` -- `command_level.d` (source lines 2197-2219): delete a signed
count around `dot`, or an explicit range; out-of-range raises `POP`. -/
def stepD (st : TS) (m n : Option Int) : TS × Option Err :=
  let st := clearargs st
  let nv := n.getD 1
  match m with
  | none =>
    let e := st.dot + nv
    if 0 ≤ e ∧ e ≤ endPos st then
      let st := if nv < 0 then goto st e else st
      let nv := if nv < 0 then -nv else nv
      (if nv ≠ 0 then bufdelete st nv else st, none)
    else (st, some .pop)
  | some mv =>
    if 0 ≤ mv ∧ mv ≤ nv ∧ nv ≤ endPos st then
      (bufdelete (goto st mv) (nv - mv), none)
    else (st, some .pop)

/-- `K` -- `command_level.k` (source lines 2544-2551): resolve the
line range, delete it, clear the arguments. -/
def stepK (st : TS) (m n : Option Int) : TS × Option Err :=
  match lineargs st m n with
  | ((st, mv, nv), none) => (clearargs (bufdelete (goto st mv) (nv - mv)), none)
  | ((st, _, _), some e) => (st, some e)

/-- Dispatch one embedded command. -/
def stepCmd (st : TS) : Cmd → TS × Option Err
  | .cmdC n => stepC st n
  | .cmdR n => stepR st n
  | .cmdJ n => stepJ st n
  | .cmdL n => stepL st n
  | .cmdI s => stepI st s
  | .cmdD m n => stepD st m n
  | .cmdK m n => stepK st m n
  | .cmdU q n => uCmd st q n
  | .cmdQ q n => qCmd st q n
  | .cmdG q => gCmd st q
  | .cmdPush q => pushCmd st q
  | .cmdPop q => popCmd st q
  | .cmdS s n start endp colon topiffail =>
    match search st s n start endp colon topiffail with
    | (st, .srhFail) => (st, some .srh)
    | (st, .pyUnbound) => (st, some .pyErr)
    | (st, _) => (st, none)

/-- The buffer-cursor invariant of §8 of the specification:
`0 ≤ dot ≤ end`. -/
def dotInv (st : TS) : Prop := 0 ≤ st.dot ∧ st.dot ≤ endPos st

/-- A genuine match of the (literal) pattern inside the search window:
the pattern occurs at `ms`, `me` is its end, and the start lies in
`[start, endp]`. -/
def GoodMatch (pat text : List Char) (start endp : Int) (ms me : Nat) : Prop :=
  pat.isPrefixOf (text.drop ms) ∧ me = ms + pat.length ∧
  start ≤ (ms : Int) ∧ (ms : Int) ≤ endp ∧ me ≤ text.length

/-- Well-formedness of the register heap: every address bound in a
dictionary refers to an existing heap cell.  This holds in every
reachable state (the dictionaries only ever receive addresses of
freshly allocated cells, and the heap never shrinks). -/
def wfAddrs (st : TS) : Prop :=
  (∀ p ∈ st.globals, p.2 < st.heap.length) ∧
  (∀ p ∈ st.locals, p.2 < st.heap.length)

/-! Concrete states used to exercise the theorems. -/

/-- A small concrete state: buffer `abc`, cursor at 0, everything else
initial. -/
def sample0 : TS := {
  text := ['a', 'b', 'c'], dot := 0, laststringlen := 0, lastsearch := [],
  num := none, colons := 0, atmod := false, edflag := 0, esflag := 0,
  inIter := false, nextCmd := none, msgs := [], didSemi := false,
  ranAutoverify := false, heap := [], globals := [], locals := [], qstack := [] }

/-- `sample0` inside an iteration with a `;` as the next command. -/
def sampleIter : TS := { sample0 with inIter := true, nextCmd := some ';' }

/-- A state with buffer `abcabc` for search tests. -/
def sampleSrch : TS := { sample0 with text := ['a', 'b', 'c', 'a', 'b', 'c'] }

/-- A state with one register `q` holding `(5, "hi")`. -/
def sampleReg : TS :=
  { sample0 with heap := [⟨5, ['h', 'i']⟩], globals := [('q', 0)] }

/-! # Theorems -/

/-- C4 counterexample: the tab character (code 9) is a control byte,
but `printable` leaves it unchanged rather than mapping it to `^I` as
the claim requires of every control byte. -/
theorem printable_tab_counterexample :
    printable [Char.ofNat 9] = [Char.ofNat 9] ∧
    printable [Char.ofNat 9] ≠ ['^', 'I'] := by decide

/-- C4 (amended): `printable` maps the control bytes 0-7 and 14-31
other than escape to `^` plus the corresponding letter, escape to `$`,
rubout to `^?`, and leaves every other character -- including the
whitespace control bytes 8-13 (BS, TAB, LF, VT, FF, CR) -- unchanged;
it distributes over concatenation. -/
theorem printable_amended :
    (∀ c : Char, printreMatch c → c ≠ escCh → c ≠ rubCh →
      printable [c] = ['^', Char.ofNat (c.toNat + 64)]) ∧
    printable [escCh] = ['$'] ∧
    printable [rubCh] = ['^', '?'] ∧
    (∀ c : Char, 8 ≤ c.toNat → c.toNat ≤ 13 → printable [c] = [c]) ∧
    (∀ c : Char, printreMatch c = false → printable [c] = [c]) ∧
    (∀ s t : List Char, printable (s ++ t) = printable s ++ printable t) := by
  refine ⟨?_, by decide, by decide, ?_, ?_, ?_⟩
  · intro c hm he hr
    simp only [printable, List.flatMap_cons, List.flatMap_nil, List.append_nil, hm, if_true,
      printdict, if_neg he, if_neg hr]
  · intro c h8 h13
    have hm : printreMatch c = false := by
      simp only [printreMatch, decide_eq_false_iff_not]
      omega
    simp [printable, hm]
  · intro c hm
    simp [printable, hm]
  · intro s t
    simp [printable]

/-- C4 witness for `printable_amended`: its hypotheses are satisfied
at ^A (replaced), tab (kept), and the letter x (kept). -/
theorem printable_amended_witness :
    printable [Char.ofNat 1] = ['^', Char.ofNat 65] ∧
    printable [Char.ofNat 9] = [Char.ofNat 9] ∧
    printable ['x'] = ['x'] := by
  refine ⟨?_, printable_amended.2.2.2.1 (Char.ofNat 9) (by decide) (by decide),
    printable_amended.2.2.2.2.1 'x' (by decide)⟩
  have h := printable_amended.1 (Char.ofNat 1) (by decide) (by decide) (by decide)
  simpa using h

/-- C7: with a pending `/` operator, `doop` divides the accumulated
value by the current term using floor division; a zero divisor raises
`ILL` before any division is performed, so no quotient is ever stored:
constructing the error clears the whole expression state
(`err.__init__` runs `teco.clearargs ()`), leaving the accumulator
`None` rather than a divided value. -/
theorem doop_div_floor_spec : ∀ (st : ExprState) (c : Char) (a d : Int),
    st.op = some '/' → st.arg = some a → st.num = some d →
    (d = 0 → doop st c = (clearargsExpr, some Err.ill)) ∧
    (d ≠ 0 → doop st c = ({ st with arg := some (Int.fdiv a d) }, none)) := by
  rintro ⟨arg, num, op⟩ c a d hop harg hnum
  simp only at hop harg hnum
  subst hop harg hnum
  constructor
  · rintro rfl
    simp [doop]
  · intro hd
    simp [doop, hd]

/-- C7 witness for `doop_div_floor_spec`: division of 7 by 0 raises
`ILL` with the expression state cleared (no quotient stored); division
of 7 by 2 floors to 3. -/
theorem doop_div_floor_witness :
    doop ⟨some 7, some 0, some '/'⟩ 'x' = (⟨none, none, none⟩, some Err.ill) ∧
    doop ⟨some 7, some 2, some '/'⟩ 'x' = (⟨some 3, some 2, some '/'⟩, none) := by
  constructor
  · exact (doop_div_floor_spec ⟨some 7, some 0, some '/'⟩ 'x' 7 0 rfl rfl rfl).1 rfl
  · rw [(doop_div_floor_spec ⟨some 7, some 2, some '/'⟩ 'x' 7 2 rfl rfl rfl).2 (by decide)]
    decide

/-- C10 counterexample: for the invalid character code -1, the `C`
conditional test is *true* (Python's `"" in "$._"` holds vacuously),
so `-1"C` takes the true branch, not the false branch the claim
asserts. -/
theorem cond_c_counterexample : condOf (-1) 'c' = .ok true := rfl

/-- C10 (amended): for an argument that is not a valid character code,
the character-based tests A, D, R, V, W evaluate over the empty string
and are false, but the C test is true (the empty string is a substring
of `"$._"`); the only error the test dispatch can raise is the TECO
error `IQC`. -/
theorem cond_invalid_amended : ∀ n : Int, (n < 0 ∨ 0x110000 ≤ n) →
    condOf n 'a' = .ok false ∧ condOf n 'c' = .ok true ∧
    condOf n 'd' = .ok false ∧ condOf n 'r' = .ok false ∧
    condOf n 'v' = .ok false ∧ condOf n 'w' = .ok false ∧
    (∀ t : Char, ∀ e : Err, condOf n t = .error e → e = Err.iqc) := by
  intro n hn
  have hc : condChr n = [] := by
    rw [condChr, if_neg]
    omega
  have hl : ∀ c : Char, condOf n c = condTest n (condChr n) c.toLower := fun c => rfl
  refine ⟨by rw [hl, hc]; rfl, by rw [hl, hc]; rfl, by rw [hl, hc]; rfl,
    by rw [hl, hc]; rfl, by rw [hl, hc]; rfl, by rw [hl, hc]; rfl, ?_⟩
  intro t e h
  rw [hl] at h
  generalize condChr n = nc at h
  simp only [condTest] at h
  repeat' split at h
  all_goals first
    | exact Except.noConfusion h
    | (injection h with h2; exact h2.symm)

/-- C10 witness for `cond_invalid_amended`, at the concrete invalid
argument -1. -/
theorem cond_invalid_witness :
    condOf (-1) 'a' = .ok false ∧ condOf (-1) 'd' = .ok false ∧
    condOf (-1) 'v' = .ok false := by
  have h := cond_invalid_amended (-1) (Or.inl (by decide))
  exact ⟨h.1, h.2.2.1, h.2.2.2.2.1⟩

/-- `goto` always lands inside `[0, end]` and leaves the text alone. -/
theorem goto_bounds (st : TS) (p : Int) :
    0 ≤ (goto st p).dot ∧ (goto st p).dot ≤ endPos st ∧ (goto st p).text = st.text := by
  have h0 : (0 : Int) ≤ endPos st := Int.natCast_nonneg _
  have hd : (goto st p).dot = if p < 0 then 0 else if p > endPos st then endPos st else p := rfl
  refine ⟨?_, ?_, rfl⟩ <;> rw [hd] <;> split_ifs <;> omega

/-- C1 counterexample: `-1J` on the sample state does not raise `POP`
as the claim requires; `buffer.goto` clamps the target and the command
succeeds with `dot = 0`. -/
theorem j_negative_counterexample :
    (stepCmd sample0 (.cmdJ (some (-1)))).2 = none ∧
    (stepCmd sample0 (.cmdJ (some (-1)))).1.dot = 0 := by decide

/-- C1 (amended): `C` and `R` raise `POP` (with `dot` unchanged) when
the target position is outside `[0, end]`, but `J` never fails -- it
clamps its target into `[0, end]` -- and `L` never fails because its
target (a `buffer.line` result passed through `goto`) is always in
range. -/
theorem motion_pop_amended : ∀ (st : TS) (n : Option Int),
    (¬ (0 ≤ st.dot + n.getD 1 ∧ st.dot + n.getD 1 ≤ endPos st) →
      stepCmd st (.cmdC n) = (clearargs st, some Err.pop) ∧
      (stepCmd st (.cmdC n)).1.dot = st.dot) ∧
    (¬ (0 ≤ st.dot - n.getD 1 ∧ st.dot - n.getD 1 ≤ endPos st) →
      stepCmd st (.cmdR n) = (clearargs st, some Err.pop) ∧
      (stepCmd st (.cmdR n)).1.dot = st.dot) ∧
    (stepCmd st (.cmdJ n)).2 = none ∧
    (stepCmd st (.cmdJ n)).1.dot = max 0 (min (n.getD 0) (endPos st)) ∧
    (stepCmd st (.cmdL n)).2 = none ∧
    0 ≤ (stepCmd st (.cmdL n)).1.dot ∧
    (stepCmd st (.cmdL n)).1.dot ≤ endPos st := by
  intro st n
  have h0 : (0 : Int) ≤ endPos st := Int.natCast_nonneg _
  refine ⟨?_, ?_, rfl, ?_, rfl, ?_, ?_⟩
  · intro h
    have hc : stepCmd st (.cmdC n) = (clearargs st, some Err.pop) := by
      show stepC st n = _
      simp only [stepC]
      exact if_neg h
    exact ⟨hc, by rw [hc]; rfl⟩
  · intro h
    have hc : stepCmd st (.cmdR n) = (clearargs st, some Err.pop) := by
      show stepR st n = _
      simp only [stepR]
      exact if_neg h
    exact ⟨hc, by rw [hc]; rfl⟩
  · have hd : (stepCmd st (.cmdJ n)).1.dot =
        if n.getD 0 < 0 then 0 else if n.getD 0 > endPos st then endPos st else n.getD 0 := rfl
    rw [hd]
    split_ifs <;> omega
  · exact (goto_bounds (clearargs st) _).1
  · exact (goto_bounds (clearargs st) _).2.1

/-- C1 witness for `motion_pop_amended`: on the sample state, `5C` and
`1R` raise `POP` with `dot` unchanged, and `99J` clamps `dot` to the
end of the buffer. -/
theorem motion_pop_witness :
    stepCmd sample0 (.cmdC (some 5)) = (clearargs sample0, some Err.pop) ∧
    stepCmd sample0 (.cmdR (some 1)) = (clearargs sample0, some Err.pop) ∧
    (stepCmd sample0 (.cmdJ (some 99))).1.dot = 3 := by
  refine ⟨((motion_pop_amended sample0 (some 5)).1 (by decide)).1,
    ((motion_pop_amended sample0 (some 1)).2.1 (by decide)).1, ?_⟩
  rw [(motion_pop_amended sample0 (some 99)).2.2.2.1]
  decide

/-! Association-list and heap lemmas for the register claims. -/

theorem alookup_aset_self (l : List (Char × Nat)) (c : Char) (a : Nat) :
    alookup (aset l c a) c = some a := by
  induction l with
  | nil => simp [aset, alookup]
  | cons p rest ih =>
    by_cases h : p.1 = c
    · simp [aset, alookup, h]
    · cases p
      simp only [aset, alookup] at *
      rw [if_neg h, alookup, if_neg h]
      exact ih

theorem getD_append_length (l : List QregV) (v d : QregV) :
    (l ++ [v]).getD l.length d = v := by
  induction l with
  | nil => rfl
  | cons a rest ih => simpa using ih

/-- C9: reading a never-written register through a syntactically valid
name creates it with number 0 and empty text: `Qq` returns 0, `:Qq`
returns a length of 0, `Gq` inserts nothing (buffer text and `dot`
unchanged), no error is raised, and the register exists afterwards
with the pair `(0, "")`. -/
theorem qreg_autocreate_spec : ∀ (st : TS) (q : QName),
    qvalid q → qregLookup st q = none → st.colons = 0 →
    (qCmd st q none).2 = none ∧ (qCmd st q none).1.num = some 0 ∧
    (qCmd { st with colons := 1 } q none).2 = none ∧
    (qCmd { st with colons := 1 } q none).1.num = some 0 ∧
    (gCmd st q).2 = none ∧ (gCmd st q).1.text = st.text ∧ (gCmd st q).1.dot = st.dot ∧
    qview (qCmd st q none).1 q = ⟨0, []⟩ ∧ (qregLookup (qCmd st q none).1 q).isSome := by
  intro st q hq hnone hcol
  have fresh : ∀ s : TS, qregLookup s q = none →
      (qregGet s q).1.heap = s.heap ++ [⟨0, []⟩] ∧
      heapGet (qregGet s q).1 (qregGet s q).2 = ⟨0, []⟩ ∧
      qregLookup (qregGet s q).1 q = some s.heap.length ∧
      (qregGet s q).1.text = s.text ∧ (qregGet s q).1.dot = s.dot ∧
      qview (qregGet s q).1 q = ⟨0, []⟩ := by
    intro s hn
    have hget : qregGet s q =
        (qregBind { s with heap := s.heap ++ [⟨0, []⟩] } q s.heap.length, s.heap.length) := by
      rw [qregGet, hn]
    have hh : (qregGet s q).1.heap = s.heap ++ [⟨0, []⟩] := by rw [hget]; cases q <;> rfl
    have hlk : qregLookup (qregGet s q).1 q = some s.heap.length := by
      rw [hget]
      cases q <;> simp [qregBind, qregLookup, alookup_aset_self]
    have hbg : heapGet (qregGet s q).1 (qregGet s q).2 = ⟨0, []⟩ := by
      rw [heapGet, hh, hget]
      exact getD_append_length _ _ _
    refine ⟨hh, hbg, hlk, by rw [hget]; cases q <;> rfl, by rw [hget]; cases q <;> rfl, ?_⟩
    simp only [qview, hlk, heapGet, hh]
    exact getD_append_length _ _ _
  obtain ⟨hheap, hbget, hlook, htext, hdot, hqv⟩ := fresh st hnone
  obtain ⟨hheapc, hbgetc, hlookc, htextc, hdotc, hqvc⟩ := fresh { st with colons := 1 } hnone
  have hq1 : qCmd st q none = (setval (clearmods (qregGet st q).1)
      (heapGet (qregGet st q).1 (qregGet st q).2).num, none) := by
    rw [qCmd, if_pos hq]
    simp only [hcol]
    rfl
  have hq2 : qCmd { st with colons := 1 } q none =
      (setval (clearmods (qregGet { st with colons := 1 } q).1)
        ((heapGet (qregGet { st with colons := 1 } q).1
          (qregGet { st with colons := 1 } q).2).text.length : Int), none) := by
    rw [qCmd, if_pos hq]
    rfl
  have hg : gCmd st q = (clearargs (insert (qregGet st q).1
      (heapGet (qregGet st q).1 (qregGet st q).2).text), none) := by
    rw [gCmd, if_pos hq]
    simp only [hcol]
    rfl
  refine ⟨by rw [hq1], ?_, by rw [hq2], ?_, by rw [hg], ?_, ?_, ?_, ?_⟩
  · rw [hq1]
    simp [setval, clearmods, hbget]
  · rw [hq2]
    simp [setval, clearmods, hbgetc]
  · rw [hg]
    simp [clearargs, insert, hbget, htext, List.take_append_drop]
  · rw [hg]
    simp [clearargs, insert, hbget, hdot]
  · rw [hq1]
    have heq : qview (setval (clearmods (qregGet st q).1)
        (heapGet (qregGet st q).1 (qregGet st q).2).num) q
        = qview (qregGet st q).1 q := by
      cases q <;> rfl
    rw [heq, hqv]
  · rw [hq1]
    have heq : qregLookup (setval (clearmods (qregGet st q).1)
        (heapGet (qregGet st q).1 (qregGet st q).2).num) q
        = qregLookup (qregGet st q).1 q := by
      cases q <;> rfl
    rw [heq, hlook]
    rfl

/-- C9 witness for `qreg_autocreate_spec`: reading the unwritten
register `z` of the sample state returns 0 and creates `(0, "")`. -/
theorem qreg_autocreate_witness :
    (qCmd sample0 (.glob 'z') none).2 = none ∧
    (qCmd sample0 (.glob 'z') none).1.num = some 0 ∧
    qview (qCmd sample0 (.glob 'z') none).1 (.glob 'z') = ⟨0, []⟩ := by
  have h := qreg_autocreate_spec sample0 (.glob 'z') (by decide) (by decide) (by decide)
  exact ⟨h.1, h.2.1, h.2.2.2.2.2.2.2.1⟩

theorem alookup_mem (l : List (Char × Nat)) (c : Char) (a : Nat) :
    alookup l c = some a → (c, a) ∈ l := by
  induction l with
  | nil => intro h; exact Option.noConfusion h
  | cons p rest ih =>
    intro h
    rcases p with ⟨k, v⟩
    rw [alookup] at h
    by_cases hk : k = c
    · rw [if_pos hk] at h
      injection h with hv
      subst hk hv
      exact List.mem_cons_self _ _
    · rw [if_neg hk] at h
      exact List.mem_cons_of_mem _ (ih h)

theorem mem_aset (l : List (Char × Nat)) (c : Char) (a : Nat) (p : Char × Nat) :
    p ∈ aset l c a → p ∈ l ∨ p = (c, a) := by
  induction l with
  | nil =>
    intro h
    rcases List.mem_singleton.mp h with h2
    exact Or.inr h2
  | cons hd rest ih =>
    intro h
    rcases hd with ⟨k, v⟩
    rw [aset] at h
    by_cases hk : k = c
    · rw [if_pos hk] at h
      rcases List.mem_cons.mp h with h2 | h2
      · exact Or.inr h2
      · exact Or.inl (List.mem_cons_of_mem _ h2)
    · rw [if_neg hk] at h
      rcases List.mem_cons.mp h with h2 | h2
      · exact Or.inl (h2 ▸ List.mem_cons_self _ _)
      · rcases ih h2 with h3 | h3
        · exact Or.inl (List.mem_cons_of_mem _ h3)
        · exact Or.inr h3

theorem getD_append_left (l l2 : List QregV) (i : Nat) (d : QregV) (h : i < l.length) :
    (l ++ l2).getD i d = l.getD i d := by
  simp [List.getD_eq_getElem?_getD, List.getElem?_append_left h]

theorem getD_set_ne (l : List QregV) (i j : Nat) (v d : QregV) (h : i ≠ j) :
    (l.set i v).getD j d = l.getD j d := by
  simp [List.getD_eq_getElem?_getD, List.getElem?_set_ne h]

/-- `command_level.qreg` leaves the name bound to the returned address,
keeps the buffer-side fields, either keeps the heap or extends it by
one cell, and preserves address well-formedness (with the returned
address valid). -/
theorem qregGet_shape (st : TS) (q : QName) (hw : wfAddrs st) :
    qregLookup (qregGet st q).1 q = some (qregGet st q).2 ∧
    ((qregGet st q).1.heap = st.heap ∨ (qregGet st q).1.heap = st.heap ++ [⟨0, []⟩]) ∧
    (qregGet st q).1.qstack = st.qstack ∧
    wfAddrs (qregGet st q).1 ∧
    (qregGet st q).2 < (qregGet st q).1.heap.length := by
  cases q with
  | glob c =>
    rcases hlk : alookup st.globals c with _ | a
    · have hget : qregGet st (.glob c) = ({ st with heap := st.heap ++ [⟨0, []⟩], globals := aset st.globals c st.heap.length }, st.heap.length) := by
        rw [qregGet, show qregLookup st (.glob c) = none from hlk]
        rfl
      rw [hget]
      refine ⟨alookup_aset_self _ _ _, Or.inr rfl, rfl, ⟨?_, ?_⟩, ?_⟩
      · intro p hp
        show p.2 < (st.heap ++ [(⟨0, []⟩ : QregV)]).length
        rcases mem_aset _ _ _ _ hp with h | h
        · have := hw.1 p h
          simp only [List.length_append, List.length_cons, List.length_nil]
          omega
        · rw [h]
          simp
      · intro p hp
        show p.2 < (st.heap ++ [(⟨0, []⟩ : QregV)]).length
        have := hw.2 p hp
        simp only [List.length_append, List.length_cons, List.length_nil]
        omega
      · show st.heap.length < (st.heap ++ [(⟨0, []⟩ : QregV)]).length
        simp
    · have hget : qregGet st (.glob c) = (st, a) := by
        rw [qregGet, show qregLookup st (.glob c) = some a from hlk]
      rw [hget]
      exact ⟨hlk, Or.inl rfl, rfl, hw, hw.1 _ (alookup_mem _ _ _ hlk)⟩
  | loc c =>
    rcases hlk : alookup st.locals c with _ | a
    · have hget : qregGet st (.loc c) = ({ st with heap := st.heap ++ [⟨0, []⟩], locals := aset st.locals c st.heap.length }, st.heap.length) := by
        rw [qregGet, show qregLookup st (.loc c) = none from hlk]
        rfl
      rw [hget]
      refine ⟨alookup_aset_self _ _ _, Or.inr rfl, rfl, ⟨?_, ?_⟩, ?_⟩
      · intro p hp
        show p.2 < (st.heap ++ [(⟨0, []⟩ : QregV)]).length
        have := hw.1 p hp
        simp only [List.length_append, List.length_cons, List.length_nil]
        omega
      · intro p hp
        show p.2 < (st.heap ++ [(⟨0, []⟩ : QregV)]).length
        rcases mem_aset _ _ _ _ hp with h | h
        · have := hw.2 p h
          simp only [List.length_append, List.length_cons, List.length_nil]
          omega
        · rw [h]
          simp
      · show st.heap.length < (st.heap ++ [(⟨0, []⟩ : QregV)]).length
        simp
    · have hget : qregGet st (.loc c) = (st, a) := by
        rw [qregGet, show qregLookup st (.loc c) = some a from hlk]
      rw [hget]
      exact ⟨hlk, Or.inl rfl, rfl, hw, hw.2 _ (alookup_mem _ _ _ hlk)⟩

/-- C6: `[q` pushes a value snapshot of register `q`; any sequence of
register-value mutations (on any registers) leaves the snapshot
intact, so a subsequent `]q` succeeds and restores `q`'s original
(number, text) pair; `[q` itself does not change `q`'s value; and `]`
without a colon on an empty register stack fails with `PES`. -/
theorem qstack_push_pop_spec :
    (∀ (st : TS) (q : QName) (ops : List RegOp), qvalid q → wfAddrs st →
      (popCmd (ops.foldl applyRegOp (pushCmd st q).1) q).2 = none ∧
      qview (popCmd (ops.foldl applyRegOp (pushCmd st q).1) q).1 q
        = qview (pushCmd st q).1 q ∧
      qview (pushCmd st q).1 q = qview st q) ∧
    (∀ (st : TS) (q : QName), st.qstack = [] → st.colons = 0 →
      popCmd st q = (clearargs st, some Err.pes)) := by
  constructor
  · intro st q ops hq hw
    obtain ⟨hbind, hheap, hstk, hw1, hlt⟩ := qregGet_shape st q hw
    set stg := (qregGet st q).1 with hstg
    set aq := (qregGet st q).2 with haq
    set v0 := heapGet stg aq with hv0
    set a0 := stg.heap.length with ha0
    have hpush : pushCmd st q =
        ({ stg with heap := stg.heap ++ [v0], qstack := stg.qstack ++ [a0] }, none) := by
      rw [pushCmd, if_pos hq]
    -- the state invariant preserved by register-value mutations
    have step : ∀ (s : TS) (op : RegOp),
        (s.qstack = stg.qstack ++ [a0] ∧ a0 < s.heap.length ∧ heapGet s a0 = v0 ∧
          (∀ p ∈ s.globals, p.2 < s.heap.length ∧ p.2 ≠ a0) ∧
          (∀ p ∈ s.locals, p.2 < s.heap.length ∧ p.2 ≠ a0)) →
        ((applyRegOp s op).qstack = stg.qstack ++ [a0] ∧
          a0 < (applyRegOp s op).heap.length ∧ heapGet (applyRegOp s op) a0 = v0 ∧
          (∀ p ∈ (applyRegOp s op).globals,
            p.2 < (applyRegOp s op).heap.length ∧ p.2 ≠ a0) ∧
          (∀ p ∈ (applyRegOp s op).locals,
            p.2 < (applyRegOp s op).heap.length ∧ p.2 ≠ a0)) := by
      intro s op hInv
      obtain ⟨hs1, hs2, hs3, hs4, hs5⟩ := hInv
      have core : ∀ (r : QName) (f : QregV → QregV),
          (heapSet (qregGet s r).1 (qregGet s r).2
              (f (heapGet (qregGet s r).1 (qregGet s r).2))).qstack = stg.qstack ++ [a0] ∧
          a0 < (heapSet (qregGet s r).1 (qregGet s r).2
              (f (heapGet (qregGet s r).1 (qregGet s r).2))).heap.length ∧
          heapGet (heapSet (qregGet s r).1 (qregGet s r).2
              (f (heapGet (qregGet s r).1 (qregGet s r).2))) a0 = v0 ∧
          (∀ p ∈ (heapSet (qregGet s r).1 (qregGet s r).2
              (f (heapGet (qregGet s r).1 (qregGet s r).2))).globals,
            p.2 < (heapSet (qregGet s r).1 (qregGet s r).2
              (f (heapGet (qregGet s r).1 (qregGet s r).2))).heap.length ∧ p.2 ≠ a0) ∧
          (∀ p ∈ (heapSet (qregGet s r).1 (qregGet s r).2
              (f (heapGet (qregGet s r).1 (qregGet s r).2))).locals,
            p.2 < (heapSet (qregGet s r).1 (qregGet s r).2
              (f (heapGet (qregGet s r).1 (qregGet s r).2))).heap.length ∧ p.2 ≠ a0) := by
        intro r f
        rcases hrlk : qregLookup s r with _ | d
        · -- fresh register: allocate, then mutate the fresh cell
          have hget : qregGet s r =
              (qregBind { s with heap := s.heap ++ [⟨0, []⟩] } r s.heap.length,
                s.heap.length) := by
            rw [qregGet, hrlk]
          have hh : (qregGet s r).1.heap = s.heap ++ [⟨0, []⟩] := by
            rw [hget]; cases r <;> rfl
          have hqs : (qregGet s r).1.qstack = s.qstack := by
            rw [hget]; cases r <;> rfl
          have hd2 : (qregGet s r).2 = s.heap.length := by rw [hget]
          have hne : (qregGet s r).2 ≠ a0 := by rw [hd2]; omega
          have hlen : (heapSet (qregGet s r).1 (qregGet s r).2
              (f (heapGet (qregGet s r).1 (qregGet s r).2))).heap.length
              = s.heap.length + 1 := by
            simp [heapSet, hh]
          refine ⟨?_, ?_, ?_, ?_, ?_⟩
          · simpa [heapSet, hqs] using hs1
          · rw [hlen]; omega
          · show (heapSet (qregGet s r).1 (qregGet s r).2 _).heap.getD a0 ⟨0, []⟩ = v0
            simp only [heapSet, hh]
            rw [getD_set_ne _ _ _ _ _ (by rw [hd2]; omega)]
            rw [getD_append_left _ _ _ _ hs2]
            exact hs3
          · intro p hp
            have hpg : p ∈ (qregGet s r).1.globals := by
              simpa [heapSet] using hp
            rw [hget] at hpg
            cases r with
            | glob c =>
              rcases mem_aset _ _ _ _ hpg with h | h
              · have := hs4 p h
                rw [hlen]
                exact ⟨by omega, this.2⟩
              · subst h
                rw [hlen]
                exact ⟨by omega, by simpa using hne.symm ∘ Eq.symm ∘ (by rw [hd2]; exact fun x => x)⟩
            | loc c =>
              have := hs4 p hpg
              rw [hlen]
              exact ⟨by omega, this.2⟩
          · intro p hp
            have hpg : p ∈ (qregGet s r).1.locals := by
              simpa [heapSet] using hp
            rw [hget] at hpg
            cases r with
            | glob c =>
              have := hs5 p hpg
              rw [hlen]
              exact ⟨by omega, this.2⟩
            | loc c =>
              rcases mem_aset _ _ _ _ hpg with h | h
              · have := hs5 p h
                rw [hlen]
                exact ⟨by omega, this.2⟩
              · subst h
                rw [hlen]
                refine ⟨by omega, ?_⟩
                show s.heap.length ≠ a0
                omega
        · -- existing register: mutate in place
          have hget : qregGet s r = (s, d) := by rw [qregGet, hrlk]
          have hdm : d < s.heap.length ∧ d ≠ a0 := by
            cases r with
            | glob c => exact hs4 _ (alookup_mem _ _ _ hrlk)
            | loc c => exact hs5 _ (alookup_mem _ _ _ hrlk)
          rw [hget]
          refine ⟨by simpa [heapSet] using hs1, by simpa [heapSet] using hs2, ?_,
            by simpa [heapSet] using hs4, by simpa [heapSet] using hs5⟩
          show (s.heap.set d _).getD a0 ⟨0, []⟩ = v0
          rw [getD_set_ne _ _ _ _ _ hdm.2]
          exact hs3
      cases op with
      | setnum r v => exact core r (fun w => { w with num := v })
      | setstr r t => exact core r (fun w => { w with text := t })
      | appendstr r t => exact core r (fun w => { w with text := w.text ++ t })
    -- the invariant holds after the push
    have base : (pushCmd st q).1.qstack = stg.qstack ++ [a0] ∧
        a0 < (pushCmd st q).1.heap.length ∧ heapGet (pushCmd st q).1 a0 = v0 ∧
        (∀ p ∈ (pushCmd st q).1.globals, p.2 < (pushCmd st q).1.heap.length ∧ p.2 ≠ a0) ∧
        (∀ p ∈ (pushCmd st q).1.locals, p.2 < (pushCmd st q).1.heap.length ∧ p.2 ≠ a0) := by
      rw [hpush]
      refine ⟨rfl, by simp, ?_, ?_, ?_⟩
      · show (stg.heap ++ [v0]).getD a0 ⟨0, []⟩ = v0
        exact getD_append_length _ _ _
      · intro p hp
        have := hw1.1 p hp
        simp only [List.length_append, List.length_cons, List.length_nil]
        exact ⟨by omega, by omega⟩
      · intro p hp
        have := hw1.2 p hp
        simp only [List.length_append, List.length_cons, List.length_nil]
        exact ⟨by omega, by omega⟩
    -- fold the mutations
    have hInv : ∀ (l : List RegOp) (s : TS),
        (s.qstack = stg.qstack ++ [a0] ∧ a0 < s.heap.length ∧ heapGet s a0 = v0 ∧
          (∀ p ∈ s.globals, p.2 < s.heap.length ∧ p.2 ≠ a0) ∧
          (∀ p ∈ s.locals, p.2 < s.heap.length ∧ p.2 ≠ a0)) →
        ((l.foldl applyRegOp s).qstack = stg.qstack ++ [a0] ∧
          a0 < (l.foldl applyRegOp s).heap.length ∧ heapGet (l.foldl applyRegOp s) a0 = v0 ∧
          (∀ p ∈ (l.foldl applyRegOp s).globals,
            p.2 < (l.foldl applyRegOp s).heap.length ∧ p.2 ≠ a0) ∧
          (∀ p ∈ (l.foldl applyRegOp s).locals,
            p.2 < (l.foldl applyRegOp s).heap.length ∧ p.2 ≠ a0)) := by
      intro l
      induction l with
      | nil => intro s h; exact h
      | cons op rest ih =>
        intro s h
        exact ih _ (step s op h)
    obtain ⟨hf1, hf2, hf3, hf4, hf5⟩ := hInv ops (pushCmd st q).1 base
    set st2 := ops.foldl applyRegOp (pushCmd st q).1 with hst2
    have hlast : st2.qstack.getLast? = some a0 := by
      rw [hf1]
      exact List.getLast?_concat _
    have hpop : popCmd st2 q =
        (if st2.colons ≠ 0 then setval (qregBind { st2 with qstack := st2.qstack.dropLast } q a0) (-1)
         else qregBind { st2 with qstack := st2.qstack.dropLast } q a0, none) := by
      rw [popCmd]
      rw [hlast]
      simp only [if_pos hq]
    have hqv2 : qview (popCmd st2 q).1 q = v0 := by
      rw [hpop]
      have hv : ∀ b : Prop, ∀ inst : Decidable b,
          qview (if b then setval (qregBind { st2 with qstack := st2.qstack.dropLast } q a0) (-1)
            else qregBind { st2 with qstack := st2.qstack.dropLast } q a0) q
          = qview (qregBind { st2 with qstack := st2.qstack.dropLast } q a0) q := by
        intro b inst
        split_ifs with hb
        · cases q <;> rfl
        · rfl
      rw [hv]
      cases q with
      | glob c =>
        simp only [qview, qregBind, qregLookup, alookup_aset_self]
        exact hf3
      | loc c =>
        simp only [qview, qregBind, qregLookup, alookup_aset_self]
        exact hf3
    have hqv1 : qview (pushCmd st q).1 q = v0 := by
      rw [hpush]
      show qview { stg with heap := stg.heap ++ [v0], qstack := stg.qstack ++ [a0] } q = v0
      have hlk : qregLookup { stg with heap := stg.heap ++ [v0], qstack := stg.qstack ++ [a0] } q
          = some aq := by
        cases q <;> exact hbind
      rw [qview, hlk]
      show (stg.heap ++ [v0]).getD aq ⟨0, []⟩ = v0
      rw [getD_append_left _ _ _ _ hlt]
      rfl
    have hqv0 : qview st q = v0 := by
      rcases hlk : qregLookup st q with _ | a
      · have hget : qregGet st q =
            (qregBind { st with heap := st.heap ++ [⟨0, []⟩] } q st.heap.length,
              st.heap.length) := by
          rw [qregGet, hlk]
        have : v0 = ⟨0, []⟩ := by
          rw [hv0, heapGet, haq, hstg, hget]
          have hh : (qregBind { st with heap := st.heap ++ [⟨0, []⟩] } q st.heap.length).heap
              = st.heap ++ [⟨0, []⟩] := by cases q <;> rfl
          rw [hh]
          exact getD_append_length _ _ _
        rw [qview, hlk, this]
      · have hget : qregGet st q = (st, a) := by rw [qregGet, hlk]
        rw [qview, hlk]
        rw [hv0, heapGet, haq, hstg, hget]
        rfl
    refine ⟨by rw [hpop], ?_, by rw [hqv1, hqv0]⟩
    rw [hqv2, hqv1]
  · intro st q hstk hcol
    rw [popCmd]
    rw [show st.qstack.getLast? = none by rw [hstk]; rfl]
    rw [if_neg (by rw [hcol]; exact fun h => h rfl)]

/-- C6 witness for `qstack_push_pop_spec`: push register `q` of the
sample register state, overwrite its number and text, pop, and observe
the original pair `(5, "hi")` restored; popping the empty-stack sample
state fails with `PES`. -/
theorem qstack_push_pop_witness :
    qview (popCmd (([RegOp.setnum (.glob 'q') 99, RegOp.setstr (.glob 'q') ['z']]).foldl
        applyRegOp (pushCmd sampleReg (.glob 'q')).1) (.glob 'q')).1 (.glob 'q')
      = ⟨5, ['h', 'i']⟩ ∧
    popCmd sample0 (.glob 'q') = (clearargs sample0, some Err.pes) := by
  constructor
  · have h := (qstack_push_pop_spec.1 sampleReg (.glob 'q')
      [RegOp.setnum (.glob 'q') 99, RegOp.setstr (.glob 'q') ['z']]
      (by decide) (by constructor <;> decide))
    rw [h.2.1, h.2.2]
    decide
  · exact qstack_push_pop_spec.2 sample0 (.glob 'q') (by decide) (by decide)

/-! Soundness of the literal match engine. -/

theorem findSub_isPrefix : ∀ (l pat : List Char) (i : Nat),
    findSub pat l = some i → pat.isPrefixOf (l.drop i) := by
  intro l
  induction l with
  | nil =>
    intro pat i h
    rw [findSub] at h
    split_ifs at h with hp
    · injection h with h
      subst h
      rw [List.isEmpty_iff] at hp
      subst hp
      rfl
  | cons c rest ih =>
    intro pat i h
    rw [findSub] at h
    split_ifs at h with hp
    · injection h with h
      subst h
      exact hp
    · rcases Option.map_eq_some'.mp h with ⟨j, hj, hij⟩
      subst hij
      show pat.isPrefixOf ((c :: rest).drop (j + 1))
      simpa using ih pat j hj

theorem findSub_le : ∀ (l pat : List Char) (i : Nat),
    findSub pat l = some i → i ≤ l.length := by
  intro l
  induction l with
  | nil =>
    intro pat i h
    rw [findSub] at h
    split_ifs at h with hp
    · injection h with h
      omega
  | cons c rest ih =>
    intro pat i h
    rw [findSub] at h
    split_ifs at h with hp
    · injection h with h
      omega
    · rcases Option.map_eq_some'.mp h with ⟨j, hj, hij⟩
      subst hij
      have := ih pat j hj
      simp only [List.length_cons]
      omega

/-- A prefix of a suffix cannot spill past the end of the text. -/
theorem prefix_drop_le (pat text : List Char) (ms : Nat)
    (h : pat.isPrefixOf (text.drop ms)) (hms : ms ≤ text.length) :
    ms + pat.length ≤ text.length := by
  have hl := List.IsPrefix.length_le (List.isPrefixOf_iff_prefix.mp h)
  rw [List.length_drop] at hl
  omega

theorem reSearch_sound (pat text : List Char) (pos ms me : Nat)
    (h : reSearch pat text pos = some (ms, me)) :
    pat.isPrefixOf (text.drop ms) ∧ me = ms + pat.length ∧ ms ≤ text.length := by
  rw [reSearch] at h
  rcases Option.map_eq_some'.mp h with ⟨i, hi, hpair⟩
  have h1 : i + min pos text.length = ms := congrArg Prod.fst hpair
  have h2 : i + min pos text.length + pat.length = me := congrArg Prod.snd hpair
  subst h1
  have hle := findSub_le _ _ _ hi
  rw [List.length_drop] at hle
  refine ⟨?_, by omega, ?_⟩
  · have hpre := findSub_isPrefix _ _ _ hi
    rw [List.drop_drop] at hpre
    have hcomm : pos ⊓ text.length + i = i + pos ⊓ text.length := Nat.add_comm _ _
    rwa [hcomm] at hpre
  · have hmin : pos ⊓ text.length ≤ text.length := Nat.min_le_right _ _
    omega

theorem reMatch_sound (pat text : List Char) (pos ms me : Nat)
    (h : reMatch pat text pos = some (ms, me)) :
    pat.isPrefixOf (text.drop ms) ∧ me = ms + pat.length ∧ ms ≤ text.length := by
  rw [reMatch] at h
  split_ifs at h with hp
  · have h1 : min pos text.length = ms := congrArg Prod.fst (Option.some_injective _ h)
    have h2 : min pos text.length + pat.length = me := congrArg Prod.snd (Option.some_injective _ h)
    subst h1
    exact ⟨hp, h2.symm, Nat.min_le_right _ _⟩

theorem slide_sound (pat text : List Char) (ls : Option Nat) :
    ∀ (pos ms me p2 : Nat), slide pat text ls pos = (some (ms, me), p2) →
    pat.isPrefixOf (text.drop ms) ∧ me = ms + pat.length ∧ ms ≤ text.length := by
  intro pos
  induction pos with
  | zero =>
    intro ms me p2 h
    rw [slide] at h
    rcases hm : reMatch pat text 0 with _ | ⟨a, b⟩
    · rw [hm] at h
      dsimp only at h
      exact Option.noConfusion (congrArg Prod.fst h)
    · rw [hm] at h
      dsimp only at h
      split_ifs at h with hok
      · have h1 := congrArg Prod.fst h
        injection h1 with h1
        have hab : a = ms ∧ b = me := ⟨congrArg Prod.fst h1, congrArg Prod.snd h1⟩
        obtain ⟨rfl, rfl⟩ := hab
        exact reMatch_sound pat text 0 _ _ hm
      · exact Option.noConfusion (congrArg Prod.fst h)
  | succ p ih =>
    intro ms me p2 h
    rw [slide] at h
    rcases hm : reMatch pat text (p + 1) with _ | ⟨a, b⟩
    · rw [hm] at h
      dsimp only at h
      exact ih ms me p2 h
    · rw [hm] at h
      dsimp only at h
      split_ifs at h with hok
      · have h1 := congrArg Prod.fst h
        injection h1 with h1
        have hab : a = ms ∧ b = me := ⟨congrArg Prod.fst h1, congrArg Prod.snd h1⟩
        obtain ⟨rfl, rfl⟩ := hab
        exact reMatch_sound pat text (p + 1) _ _ hm
      · exact ih ms me p2 h

theorem boundOk_sound (start endp : Int) (m : Option (Nat × Nat)) (ms me : Nat)
    (h : boundOk start endp m = some (ms, me)) :
    m = some (ms, me) ∧ start ≤ (ms : Int) ∧ (ms : Int) ≤ endp := by
  rcases m with _ | ⟨a, b⟩
  · exact Option.noConfusion h
  · rw [boundOk] at h
    split_ifs at h with hc
    · injection h with h
      have hab : a = ms ∧ b = me := ⟨congrArg Prod.fst h, congrArg Prod.snd h⟩
      obtain ⟨rfl, rfl⟩ := hab
      exact ⟨rfl, hc⟩

/-! The possible outcomes of the search loops: a success epilogue on a
genuine in-window match, the failure path, or the unbound-local state
(`abs (n) = 0`). -/

theorem searchFwdLoop_shape (pat : List Char) (start endp : Int) (colon topiffail : Bool)
    (st : TS) (pos : Int) : ∀ (rep : Nat) (last : Option (Nat × Nat)),
    (∀ ms me, last = some (ms, me) → GoodMatch pat st.text start endp ms me) →
    (∃ ms me, GoodMatch pat st.text start endp ms me ∧
      searchFwdLoop pat start endp colon topiffail st pos last rep
        = (searchSucceed st colon ms me, .found)) ∨
    searchFwdLoop pat start endp colon topiffail st pos last rep
      = searchFail st colon topiffail ∨
    searchFwdLoop pat start endp colon topiffail st pos last rep = (st, .pyUnbound) := by
  intro rep
  induction rep with
  | zero =>
    intro last hlast
    rcases last with _ | ⟨ms, me⟩
    · right; right; rfl
    · exact Or.inl ⟨ms, me, hlast ms me rfl, rfl⟩
  | succ n ih =>
    intro last hlast
    rcases hb : boundOk start endp (reSearch pat st.text pos.toNat) with _ | ⟨ms, me⟩
    · right; left
      rw [searchFwdLoop, hb]
    · have hg : GoodMatch pat st.text start endp ms me := by
        obtain ⟨hre, hs, he⟩ := boundOk_sound start endp _ ms me hb
        obtain ⟨hpre, hlen, hmsle⟩ := reSearch_sound pat st.text pos.toNat ms me hre
        refine ⟨hpre, hlen, hs, he, ?_⟩
        have := prefix_drop_le pat st.text ms hpre hmsle
        omega
      have heq : searchFwdLoop pat start endp colon topiffail st pos last (n + 1)
          = searchFwdLoop pat start endp colon topiffail st pos (some (ms, me)) n := by
        rw [searchFwdLoop, hb]
      rw [heq]
      exact ih (some (ms, me)) (by
        intro a b hab
        injection hab with hab
        have : ms = a ∧ me = b := ⟨congrArg Prod.fst hab, congrArg Prod.snd hab⟩
        obtain ⟨rfl, rfl⟩ := this
        exact hg)

theorem searchRevLoop_shape (pat : List Char) (start endp : Int) (colon topiffail : Bool)
    (st : TS) : ∀ (rep : Nat) (laststart : Option Nat) (pos : Nat) (last : Option (Nat × Nat)),
    (∀ ms me, last = some (ms, me) → GoodMatch pat st.text start endp ms me) →
    (∃ ms me, GoodMatch pat st.text start endp ms me ∧
      searchRevLoop pat start endp colon topiffail st laststart pos last rep
        = (searchSucceed st colon ms me, .found)) ∨
    searchRevLoop pat start endp colon topiffail st laststart pos last rep
      = searchFail st colon topiffail ∨
    searchRevLoop pat start endp colon topiffail st laststart pos last rep
      = (st, .pyUnbound) := by
  intro rep
  induction rep with
  | zero =>
    intro laststart pos last hlast
    rcases last with _ | ⟨ms, me⟩
    · right; right; rfl
    · exact Or.inl ⟨ms, me, hlast ms me rfl, rfl⟩
  | succ n ih =>
    intro laststart pos last hlast
    rcases hb : boundOk start endp (slide pat st.text laststart pos).1 with _ | ⟨ms, me⟩
    · right; left
      rw [searchRevLoop, hb]
    · have hg : GoodMatch pat st.text start endp ms me := by
        obtain ⟨hre, hs, he⟩ := boundOk_sound start endp _ ms me hb
        obtain ⟨hpre, hlen, hmsle⟩ := slide_sound pat st.text laststart pos ms me
          (slide pat st.text laststart pos).2 (by rw [← hre])
        exact ⟨hpre, hlen, hs, he, by
          have := prefix_drop_le pat st.text ms hpre hmsle
          omega⟩
      have heq : searchRevLoop pat start endp colon topiffail st laststart pos last (n + 1)
          = searchRevLoop pat start endp colon topiffail st (some ms)
              (slide pat st.text laststart pos).2 (some (ms, me)) n := by
        rw [searchRevLoop, hb]
      rw [heq]
      exact ih (some ms) (slide pat st.text laststart pos).2 (some (ms, me)) (by
        intro a b hab
        injection hab with hab
        have : ms = a ∧ me = b := ⟨congrArg Prod.fst hab, congrArg Prod.snd hab⟩
        obtain ⟨rfl, rfl⟩ := this
        exact hg)

/-- The possible outcomes of a whole `search` call: a success epilogue
on a genuine in-window match of the effective pattern, the failure
path, or (only for `n = 0`) the unbound-local state.  The base state
of the outcome is the input state with `lastsearch` updated. -/
theorem search_shape (st : TS) (s : List Char) (n start endp : Int)
    (colon topiffail : Bool) :
    (∃ ms me, GoodMatch (if s.isEmpty then st.lastsearch else s) st.text start endp ms me ∧
      search st s n start endp colon topiffail
        = (searchSucceed (if s.isEmpty then st else { st with lastsearch := s }) colon ms me,
            .found)) ∨
    search st s n start endp colon topiffail
      = searchFail (if s.isEmpty then st else { st with lastsearch := s }) colon topiffail ∨
    search st s n start endp colon topiffail
      = ((if s.isEmpty then st else { st with lastsearch := s }), .pyUnbound) := by
  by_cases hse : s.isEmpty
  · rw [show search st s n start endp colon topiffail
        = (if n < 0 then searchRevLoop st.lastsearch start endp colon topiffail st none
            endp.toNat none n.natAbs
          else searchFwdLoop st.lastsearch start endp colon topiffail st start none n.natAbs)
        from by rw [search, hse]; rfl]
    simp only [hse, if_true]
    by_cases hn : n < 0
    · rw [if_pos hn]
      exact searchRevLoop_shape st.lastsearch start endp colon topiffail st n.natAbs none
        endp.toNat none (fun ms me h => Option.noConfusion h)
    · rw [if_neg hn]
      exact searchFwdLoop_shape st.lastsearch start endp colon topiffail st start n.natAbs none
        (fun ms me h => Option.noConfusion h)
  · rw [show search st s n start endp colon topiffail
        = (if n < 0 then searchRevLoop s start endp colon topiffail
            { st with lastsearch := s } none endp.toNat none n.natAbs
          else searchFwdLoop s start endp colon topiffail
            { st with lastsearch := s } start none n.natAbs)
        from by rw [search, if_neg hse]]
    simp only [hse, if_false]
    by_cases hn : n < 0
    · rw [if_pos hn]
      exact searchRevLoop_shape s start endp colon topiffail { st with lastsearch := s }
        n.natAbs none endp.toNat none (fun ms me h => Option.noConfusion h)
    · rw [if_neg hn]
      exact searchFwdLoop_shape s start endp colon topiffail { st with lastsearch := s }
        start n.natAbs none (fun ms me h => Option.noConfusion h)

/-! Field-preservation facts for `goto` (it only writes `dot`). -/

theorem goto_text (st : TS) (p : Int) : (goto st p).text = st.text := rfl

theorem goto_inIter (st : TS) (p : Int) : (goto st p).inIter = st.inIter := rfl

theorem goto_nextCmd (st : TS) (p : Int) : (goto st p).nextCmd = st.nextCmd := rfl

theorem goto_num (st : TS) (p : Int) : (goto st p).num = st.num := rfl

theorem goto_msgs (st : TS) (p : Int) : (goto st p).msgs = st.msgs := rfl

theorem goto_didSemi (st : TS) (p : Int) : (goto st p).didSemi = st.didSemi := rfl

theorem goto_edflag (st : TS) (p : Int) : (goto st p).edflag = st.edflag := rfl

/-! Field-preservation facts for `setval` and `clearargs`. -/

theorem setval_num (st : TS) (v : Int) : (setval st v).num = some v := rfl

theorem setval_dot (st : TS) (v : Int) : (setval st v).dot = st.dot := rfl

theorem setval_text (st : TS) (v : Int) : (setval st v).text = st.text := rfl

theorem setval_inIter (st : TS) (v : Int) : (setval st v).inIter = st.inIter := rfl

theorem setval_nextCmd (st : TS) (v : Int) : (setval st v).nextCmd = st.nextCmd := rfl

theorem setval_msgs (st : TS) (v : Int) : (setval st v).msgs = st.msgs := rfl

theorem setval_didSemi (st : TS) (v : Int) : (setval st v).didSemi = st.didSemi := rfl

theorem clearargs_num (st : TS) : (clearargs st).num = none := rfl

theorem clearargs_dot (st : TS) : (clearargs st).dot = st.dot := rfl

theorem clearargs_text (st : TS) : (clearargs st).text = st.text := rfl

theorem clearargs_msgs (st : TS) : (clearargs st).msgs = st.msgs := rfl

theorem clearargs_didSemi (st : TS) : (clearargs st).didSemi = st.didSemi := rfl

/-- What the success epilogue does to the observable fields. -/
theorem searchSucceed_spec (st : TS) (colon : Bool) (ms me : Nat)
    (hme : (me : Int) ≤ endPos st) :
    (searchSucceed st colon ms me).dot = (me : Int) ∧
    (searchSucceed st colon ms me).laststringlen = (ms : Int) - me ∧
    (searchSucceed st colon ms me).num
      = (if colon ∨ (st.inIter ∧ st.nextCmd = some ';') then some (-1) else st.num) ∧
    (searchSucceed st colon ms me).ranAutoverify = true ∧
    (searchSucceed st colon ms me).text = st.text ∧
    (searchSucceed st colon ms me).msgs = st.msgs ∧
    (searchSucceed st colon ms me).didSemi = st.didSemi := by
  have hdot : (goto st me).dot = (me : Int) := by
    have hd : (goto st me).dot =
        if (me : Int) < 0 then 0 else if (me : Int) > endPos st then endPos st else (me : Int) := rfl
    rw [hd]
    have h0 : (0 : Int) ≤ (me : Int) := Int.natCast_nonneg _
    split_ifs <;> omega
  simp only [searchSucceed, goto_inIter, goto_nextCmd]
  by_cases hP : colon = true ∨ st.inIter = true ∧ st.nextCmd = some ';'
  · simp only [if_pos hP]
    refine ⟨?_, ?_, ?_, ?_, ?_, ?_, ?_⟩ <;>
      simp [setval, clearmods, hdot, goto_text, goto_num, goto_msgs, goto_didSemi]
  · simp only [if_neg hP]
    refine ⟨?_, ?_, ?_, ?_, ?_, ?_, ?_⟩ <;>
      simp [setval, clearmods, hdot, goto_text, goto_num, goto_msgs, goto_didSemi]

/-- What the failure path does: the `dot` reset, then value 0 and
return for colon, value 0 with the conditional warning and simulated
`;` inside an iteration, or the `SRH` error. -/
theorem searchFail_spec (st : TS) (colon topiffail : Bool) :
    (searchFail st colon topiffail).1.dot
      = (if topiffail ∧ Int.land st.edflag 16 = 0 then 0 else st.dot) ∧
    (searchFail st colon topiffail).1.text = st.text ∧
    (colon = true →
      (searchFail st colon topiffail).2 = .notfound ∧
      (searchFail st colon topiffail).1.num = some 0 ∧
      (searchFail st colon topiffail).1.msgs = st.msgs ∧
      (searchFail st colon topiffail).1.didSemi = st.didSemi) ∧
    (colon = false → st.inIter = true →
      (searchFail st colon topiffail).2 = .notfound ∧
      (searchFail st colon topiffail).1.num = some 0 ∧
      (st.nextCmd ≠ some ';' →
        (searchFail st colon topiffail).1.msgs = st.msgs ++ [searchFailMsg] ∧
        (searchFail st colon topiffail).1.didSemi = true) ∧
      (st.nextCmd = some ';' →
        (searchFail st colon topiffail).1.msgs = st.msgs ∧
        (searchFail st colon topiffail).1.didSemi = st.didSemi)) ∧
    (colon = false → st.inIter = false →
      (searchFail st colon topiffail).2 = .srhFail ∧
      (searchFail st colon topiffail).1.num = none ∧
      (searchFail st colon topiffail).1.msgs = st.msgs ∧
      (searchFail st colon topiffail).1.didSemi = st.didSemi) := by
  have h0 : (0 : Int) ≤ endPos st := Int.natCast_nonneg _
  have hd0 : (goto st 0).dot = 0 := by
    have hd : (goto st 0).dot =
        if (0 : Int) < 0 then 0 else if (0 : Int) > endPos st then endPos st else (0 : Int) := rfl
    rw [hd]
    split_ifs <;> omega
  simp only [searchFail, setval_inIter, setval_nextCmd]
  by_cases hR : topiffail = true ∧ Int.land st.edflag 16 = 0
  · rw [if_pos hR, if_pos hR]
    simp only [goto_inIter, goto_nextCmd]
    rcases colon with _ | _
    · rw [if_neg Bool.false_ne_true]
      rcases hit : st.inIter with _ | _
      · rw [if_neg Bool.false_ne_true]
        refine ⟨hd0, rfl, ?_, ?_, ?_⟩
        · intro h
          exact Bool.noConfusion h
        · intro _ h
          exact Bool.noConfusion h
        · intro _ _
          exact ⟨rfl, rfl, rfl,
            rfl⟩
      · rw [if_pos rfl]
        by_cases hnc : st.nextCmd ≠ some ';'
        · rw [if_pos hnc]
          refine ⟨hd0, rfl, ?_, ?_, ?_⟩
          · intro h
            exact Bool.noConfusion h
          · intro _ _
            exact ⟨rfl, rfl,
              fun _ => ⟨rfl, rfl⟩,
              fun hc => absurd hc hnc⟩
          · intro _ h
            exact Bool.noConfusion h
        · rw [if_neg hnc]
          refine ⟨hd0, rfl, ?_, ?_, ?_⟩
          · intro h
            exact Bool.noConfusion h
          · intro _ _
            exact ⟨rfl, rfl,
              fun h => absurd h (by simpa using hnc),
              fun _ => ⟨rfl,
                rfl⟩⟩
          · intro _ h
            exact Bool.noConfusion h
    · rw [if_pos rfl]
      refine ⟨hd0, rfl, ?_, ?_, ?_⟩
      · intro _
        exact ⟨rfl, rfl, rfl,
          rfl⟩
      · intro h
        exact Bool.noConfusion h
      · intro h
        exact Bool.noConfusion h
  · rw [if_neg hR, if_neg hR]
    rcases colon with _ | _
    · rw [if_neg Bool.false_ne_true]
      rcases hit : st.inIter with _ | _
      · rw [if_neg Bool.false_ne_true]
        refine ⟨rfl, rfl, ?_, ?_, ?_⟩
        · intro h
          exact Bool.noConfusion h
        · intro _ h
          exact Bool.noConfusion h
        · intro _ _
          exact ⟨rfl, rfl, rfl, rfl⟩
      · rw [if_pos rfl]
        by_cases hnc : st.nextCmd ≠ some ';'
        · rw [if_pos hnc]
          refine ⟨rfl, rfl, ?_, ?_, ?_⟩
          · intro h
            exact Bool.noConfusion h
          · intro _ _
            exact ⟨rfl, rfl,
              fun _ => ⟨rfl, rfl⟩,
              fun hc => absurd hc hnc⟩
          · intro _ h
            exact Bool.noConfusion h
        · rw [if_neg hnc]
          refine ⟨rfl, rfl, ?_, ?_, ?_⟩
          · intro h
            exact Bool.noConfusion h
          · intro _ _
            exact ⟨rfl, rfl,
              fun h => absurd h (by simpa using hnc),
              fun _ => ⟨rfl, rfl⟩⟩
          · intro _ h
            exact Bool.noConfusion h
    · rw [if_pos rfl]
      refine ⟨rfl, rfl, ?_, ?_, ?_⟩
      · intro _
        exact ⟨rfl, rfl, rfl, rfl⟩
      · intro h
        exact Bool.noConfusion h
      · intro h
        exact Bool.noConfusion h

/-- C2: whenever a search succeeds, `dot` sits at the end of a genuine
in-window match of the effective pattern, `laststringlen` is the
negated matched length, the expression value is set to -1 exactly when
the search was colon-modified or the next command is `;` inside an
iteration, the auto-verify routine runs, and the buffer text is
untouched. -/
theorem search_success_spec : ∀ (st : TS) (s : List Char) (n start endp : Int)
    (colon topiffail : Bool),
    (search st s n start endp colon topiffail).2 = .found →
    ∃ ms me : Nat,
      (if s.isEmpty then st.lastsearch else s).isPrefixOf (st.text.drop ms) ∧
      me = ms + (if s.isEmpty then st.lastsearch else s).length ∧
      start ≤ (ms : Int) ∧ (ms : Int) ≤ endp ∧
      (search st s n start endp colon topiffail).1.dot = (me : Int) ∧
      (search st s n start endp colon topiffail).1.laststringlen
        = -(((if s.isEmpty then st.lastsearch else s).length : Int)) ∧
      (search st s n start endp colon topiffail).1.num
        = (if colon ∨ (st.inIter ∧ st.nextCmd = some ';') then some (-1) else st.num) ∧
      (search st s n start endp colon topiffail).1.ranAutoverify = true ∧
      (search st s n start endp colon topiffail).1.text = st.text := by
  intro st s n start endp colon topiffail hcode
  rcases search_shape st s n start endp colon topiffail with ⟨ms, me, hg, heq⟩ | heq | heq
  · refine ⟨ms, me, ?_⟩
    by_cases hse : s.isEmpty
    · rw [if_pos hse] at heq
      simp only [if_pos hse] at hg ⊢
      obtain ⟨hpre, hlen, hs, he, hmle⟩ := hg
      have hsp := searchSucceed_spec st colon ms me (by
        simp only [endPos]
        exact Int.ofNat_le.mpr hmle)
      rw [heq]
      exact ⟨hpre, hlen, hs, he, hsp.1, by
        rw [hsp.2.1]
        omega, hsp.2.2.1, hsp.2.2.2.1, hsp.2.2.2.2.1⟩
    · rw [if_neg hse] at heq
      simp only [if_neg hse] at hg ⊢
      obtain ⟨hpre, hlen, hs, he, hmle⟩ := hg
      have hsp := searchSucceed_spec { st with lastsearch := s } colon ms me (by
        simp only [endPos]
        exact Int.ofNat_le.mpr hmle)
      rw [heq]
      exact ⟨hpre, hlen, hs, he, hsp.1, by
        rw [hsp.2.1]
        omega, hsp.2.2.1, hsp.2.2.2.1, hsp.2.2.2.2.1⟩
  · rw [heq] at hcode
    have := (searchFail_spec (if s.isEmpty then st else { st with lastsearch := s })
      colon topiffail)
    rcases colon with _ | _
    · rcases hit : (if s.isEmpty then st else { st with lastsearch := s }).inIter with _ | _
      · rw [(this.2.2.2.2 rfl hit).1] at hcode
        exact SearchCode.noConfusion hcode
      · rw [(this.2.2.2.1 rfl hit).1] at hcode
        exact SearchCode.noConfusion hcode
    · rw [(this.2.2.1 rfl).1] at hcode
      exact SearchCode.noConfusion hcode
  · rw [heq] at hcode
    exact SearchCode.noConfusion hcode

/-- C2 witness for `search_success_spec`: searching for `b` forward in
`abcabc` succeeds; the conclusion is witnessed at the concrete call. -/
theorem search_success_witness :
    ∃ ms me : Nat,
      (if List.isEmpty ['b'] then sampleSrch.lastsearch else ['b']).isPrefixOf
        (sampleSrch.text.drop ms) ∧
      me = ms + (if List.isEmpty ['b'] then sampleSrch.lastsearch else ['b']).length ∧
      (0 : Int) ≤ (ms : Int) ∧ (ms : Int) ≤ (6 : Int) ∧
      (search sampleSrch ['b'] 1 0 6 false true).1.dot = (me : Int) ∧
      (search sampleSrch ['b'] 1 0 6 false true).1.laststringlen
        = -(((if List.isEmpty ['b'] then sampleSrch.lastsearch else ['b']).length : Int)) ∧
      (search sampleSrch ['b'] 1 0 6 false true).1.num
        = (if false = true ∨ (sampleSrch.inIter ∧ sampleSrch.nextCmd = some ';')
            then some (-1) else sampleSrch.num) ∧
      (search sampleSrch ['b'] 1 0 6 false true).1.ranAutoverify = true ∧
      (search sampleSrch ['b'] 1 0 6 false true).1.text = sampleSrch.text :=
  search_success_spec sampleSrch ['b'] 1 0 6 false true (by decide)

/-- C3 counterexample: a failing non-colon search inside an iteration
whose next command character is `;` prints nothing and simulates no
`;`, contrary to the claim that the warning is always printed there. -/
theorem search_iter_semi_counterexample :
    (search sampleIter ['x'] 1 0 3 false true).2 = .notfound ∧
    (search sampleIter ['x'] 1 0 3 false true).1.msgs = [] ∧
    (search sampleIter ['x'] 1 0 3 false true).1.didSemi = false := by decide

/-- C3 (amended): when a search fails, `dot` is reset to 0 exactly when
the reset-on-fail flag is set and bit 4 of `ed` is clear; a
colon-modified search produces the value 0 and returns; inside an
iteration the value 0 is produced and -- only if the next command
character is not `;` -- the warning `%Search fail in iter` is printed
and a `;` is simulated; otherwise error `SRH` is raised (clearing the
expression value). -/
theorem search_fail_amended : ∀ (st : TS) (s : List Char) (n start endp : Int)
    (colon topiffail : Bool),
    ((search st s n start endp colon topiffail).2 = .notfound ∨
     (search st s n start endp colon topiffail).2 = .srhFail) →
    ((search st s n start endp colon topiffail).1.dot
        = (if topiffail ∧ Int.land st.edflag 16 = 0 then 0 else st.dot)) ∧
    (colon = true →
      (search st s n start endp colon topiffail).2 = .notfound ∧
      (search st s n start endp colon topiffail).1.num = some 0 ∧
      (search st s n start endp colon topiffail).1.msgs = st.msgs ∧
      (search st s n start endp colon topiffail).1.didSemi = st.didSemi) ∧
    (colon = false → st.inIter = true →
      (search st s n start endp colon topiffail).2 = .notfound ∧
      (search st s n start endp colon topiffail).1.num = some 0 ∧
      (st.nextCmd ≠ some ';' →
        (search st s n start endp colon topiffail).1.msgs = st.msgs ++ [searchFailMsg] ∧
        (search st s n start endp colon topiffail).1.didSemi = true) ∧
      (st.nextCmd = some ';' →
        (search st s n start endp colon topiffail).1.msgs = st.msgs ∧
        (search st s n start endp colon topiffail).1.didSemi = st.didSemi)) ∧
    (colon = false → st.inIter = false →
      (search st s n start endp colon topiffail).2 = .srhFail ∧
      (search st s n start endp colon topiffail).1.num = none ∧
      (search st s n start endp colon topiffail).1.msgs = st.msgs ∧
      (search st s n start endp colon topiffail).1.didSemi = st.didSemi) := by
  intro st s n start endp colon topiffail hcode
  rcases search_shape st s n start endp colon topiffail with ⟨ms, me, hg, heq⟩ | heq | heq
  · rw [heq] at hcode
    rcases hcode with h | h <;> exact SearchCode.noConfusion h
  · by_cases hse : s.isEmpty
    · rw [if_pos hse] at heq
      rw [heq]
      have hsp := searchFail_spec st colon topiffail
      exact ⟨hsp.1, hsp.2.2.1, hsp.2.2.2.1, hsp.2.2.2.2⟩
    · rw [if_neg hse] at heq
      rw [heq]
      have hsp := searchFail_spec { st with lastsearch := s } colon topiffail
      exact ⟨hsp.1, hsp.2.2.1, hsp.2.2.2.1, hsp.2.2.2.2⟩
  · rw [heq] at hcode
    rcases hcode with h | h <;> exact SearchCode.noConfusion h

/-- C3 witness for `search_fail_amended`: the failing plain search on
the sample state raises `SRH` with the expression value cleared and
`dot` reset to 0. -/
theorem search_fail_witness :
    (search sample0 ['x'] 1 0 3 false true).2 = .srhFail ∧
    (search sample0 ['x'] 1 0 3 false true).1.num = none ∧
    (search sample0 ['x'] 1 0 3 false true).1.dot = 0 := by
  have h := search_fail_amended sample0 ['x'] 1 0 3 false true (Or.inr (by decide))
  refine ⟨(h.2.2.2 rfl rfl).1, (h.2.2.2 rfl rfl).2.1, ?_⟩
  rw [h.1]
  decide

/-! Invariant preservation of the individual buffer operations. -/

theorem insert_inv (st : TS) (s : List Char) (h : dotInv st) : dotInv (insert st s) := by
  obtain ⟨h1, h2⟩ := h
  have hd : (insert st s).dot = st.dot + s.length := rfl
  have hnat : st.dot.toNat ≤ st.text.length := by
    simp only [endPos] at h2
    omega
  have hlen : (insert st s).text.length = st.text.length + s.length := by
    simp only [insert, List.length_append, List.length_take, List.length_drop]
    omega
  constructor
  · rw [hd]
    have : (0 : Int) ≤ (s.length : Int) := Int.natCast_nonneg _
    omega
  · show (insert st s).dot ≤ ((insert st s).text.length : Int)
    rw [hd, hlen]
    simp only [endPos] at h2
    push_cast
    omega

theorem bufdelete_inv (st : TS) (k : Int) (h : dotInv st) : dotInv (bufdelete st k) := by
  obtain ⟨h1, h2⟩ := h
  have hd : (bufdelete st k).dot = st.dot := rfl
  have hnat : st.dot.toNat ≤ st.text.length := by
    simp only [endPos] at h2
    omega
  have hlen : (bufdelete st k).text.length
      = st.dot.toNat + (st.text.length - (st.dot + k).toNat) := by
    simp only [bufdelete, List.length_append, List.length_take, List.length_drop]
    omega
  refine ⟨by rw [hd]; exact h1, ?_⟩
  show (bufdelete st k).dot ≤ ((bufdelete st k).text.length : Int)
  rw [hd, hlen]
  omega

theorem qregGet_dotInv (st : TS) (q : QName) (h : dotInv st) : dotInv (qregGet st q).1 := by
  rcases hlk : qregLookup st q with _ | a <;> rw [qregGet, hlk]
  · cases q <;> exact h
  · exact h

theorem searchSucceed_inv (st : TS) (c : Bool) (ms me : Nat) :
    dotInv (searchSucceed st c ms me) := by
  have hb := goto_bounds st me
  simp only [searchSucceed, goto_inIter, goto_nextCmd]
  by_cases hP : c = true ∨ st.inIter = true ∧ st.nextCmd = some ';'
  · simp only [if_pos hP]
    exact ⟨hb.1, hb.2.1⟩
  · simp only [if_neg hP]
    exact ⟨hb.1, hb.2.1⟩

theorem searchFail_inv (st : TS) (c t : Bool) (h : dotInv st) :
    dotInv (searchFail st c t).1 := by
  have hsp := searchFail_spec st c t
  have hend : endPos (searchFail st c t).1 = endPos st := by
    simp only [endPos, hsp.2.1]
  constructor
  · rw [hsp.1]
    split_ifs
    · omega
    · exact h.1
  · rw [hsp.1, hend]
    have h2 := h.2
    have h0 : (0 : Int) ≤ endPos st := Int.natCast_nonneg _
    split_ifs
    · omega
    · exact h2

/-- `stepCmd` on a search command keeps the state the search produced. -/
theorem stepCmd_search_state (st : TS) (s : List Char) (n start endp : Int)
    (colon topiffail : Bool) :
    (stepCmd st (.cmdS s n start endp colon topiffail)).1
      = (search st s n start endp colon topiffail).1 := by
  show (match search st s n start endp colon topiffail with
    | (st, SearchCode.srhFail) => (st, some Err.srh)
    | (st, SearchCode.pyUnbound) => (st, some Err.pyErr)
    | (st, _) => (st, none)).1 = _
  rcases search st s n start endp colon topiffail with ⟨st2, code⟩
  rcases code <;> rfl

/-- C8: every embedded command preserves the buffer-cursor invariant
`0 ≤ dot ≤ end`, whether it completes normally or raises a TECO
error. -/
theorem step_dot_inv : ∀ (st : TS) (cmd : Cmd), dotInv st → dotInv (stepCmd st cmd).1 := by
  intro st cmd h
  obtain ⟨h1, h2⟩ := h
  cases cmd with
  | cmdC n =>
    show dotInv (stepC st n).1
    simp only [stepC]
    split_ifs with hc
    · exact ⟨(goto_bounds _ _).1, (goto_bounds _ _).2.1⟩
    · exact ⟨h1, h2⟩
  | cmdR n =>
    show dotInv (stepR st n).1
    simp only [stepR]
    split_ifs with hc
    · exact ⟨(goto_bounds _ _).1, (goto_bounds _ _).2.1⟩
    · exact ⟨h1, h2⟩
  | cmdJ n => exact ⟨(goto_bounds (clearargs st) _).1, (goto_bounds (clearargs st) _).2.1⟩
  | cmdL n => exact ⟨(goto_bounds (clearargs st) _).1, (goto_bounds (clearargs st) _).2.1⟩
  | cmdI s => exact insert_inv st s ⟨h1, h2⟩
  | cmdD m n =>
    show dotInv (stepD st m n).1
    simp only [stepD]
    rcases m with _ | mv
    · dsimp only
      split_ifs with hc hneg hnz hnz
      · exact bufdelete_inv _ _ ⟨(goto_bounds _ _).1, (goto_bounds _ _).2.1⟩
      · exact ⟨(goto_bounds _ _).1, (goto_bounds _ _).2.1⟩
      · exact bufdelete_inv _ _ ⟨h1, h2⟩
      · exact ⟨h1, h2⟩
      · exact ⟨h1, h2⟩
    · dsimp only
      split_ifs with hc
      · exact bufdelete_inv _ _ ⟨(goto_bounds _ _).1, (goto_bounds _ _).2.1⟩
      · exact ⟨h1, h2⟩
  | cmdK m n =>
    show dotInv (stepK st m n).1
    simp only [stepK, lineargs]
    rcases m with _ | mv
    · dsimp only
      split_ifs with hc
      · exact bufdelete_inv (goto st st.dot)
          ((line st.text st.dot.toNat (n.getD 1) : Int) - st.dot)
          ⟨(goto_bounds _ _).1, (goto_bounds _ _).2.1⟩
      · exact bufdelete_inv (goto st (line st.text st.dot.toNat (n.getD 1) : Int))
          (st.dot - (line st.text st.dot.toNat (n.getD 1) : Int))
          ⟨(goto_bounds _ _).1, (goto_bounds _ _).2.1⟩
    · dsimp only
      split_ifs with hc
      · exact ⟨h1, h2⟩
      · exact bufdelete_inv (goto st mv) (n.getD 1 - mv)
          ⟨(goto_bounds _ _).1, (goto_bounds _ _).2.1⟩
  | cmdU q n =>
    show dotInv (uCmd st q n).1
    simp only [uCmd]
    split_ifs with hq
    · rcases n with _ | v
      · exact qregGet_dotInv st q ⟨h1, h2⟩
      · exact qregGet_dotInv st q ⟨h1, h2⟩
    · exact ⟨h1, h2⟩
  | cmdQ q n =>
    show dotInv (qCmd st q n).1
    simp only [qCmd]
    split_ifs with hq hcol
    · exact qregGet_dotInv st q ⟨h1, h2⟩
    · rcases n with _ | v
      · exact qregGet_dotInv st q ⟨h1, h2⟩
      · exact qregGet_dotInv st q ⟨h1, h2⟩
    · exact ⟨h1, h2⟩
  | cmdG q =>
    show dotInv (gCmd st q).1
    simp only [gCmd]
    split_ifs with hq hcol
    · exact qregGet_dotInv st q ⟨h1, h2⟩
    · exact insert_inv (qregGet st q).1 _ (qregGet_dotInv st q ⟨h1, h2⟩)
    · exact ⟨h1, h2⟩
  | cmdPush q =>
    show dotInv (pushCmd st q).1
    simp only [pushCmd]
    split_ifs with hq
    · exact qregGet_dotInv st q ⟨h1, h2⟩
    · exact ⟨h1, h2⟩
  | cmdPop q =>
    show dotInv (popCmd st q).1
    simp only [popCmd]
    rcases hls : st.qstack.getLast? with _ | a
    · dsimp only
      split_ifs with hcol
      · exact ⟨h1, h2⟩
      · exact ⟨h1, h2⟩
    · dsimp only
      split_ifs with hq hcol
      · cases q <;> exact ⟨h1, h2⟩
      · cases q <;> exact ⟨h1, h2⟩
      · exact ⟨h1, h2⟩
  | cmdS s n start endp colon topiffail =>
    rw [stepCmd_search_state]
    rcases search_shape st s n start endp colon topiffail with ⟨ms, me, hg, heq⟩ | heq | heq
      <;> rw [heq]
    · exact searchSucceed_inv _ _ _ _
    · by_cases hse : s.isEmpty
      · rw [if_pos hse]
        exact searchFail_inv st colon topiffail ⟨h1, h2⟩
      · rw [if_neg hse]
        exact searchFail_inv { st with lastsearch := s } colon topiffail ⟨h1, h2⟩
    · by_cases hse : s.isEmpty
      · rw [if_pos hse]
        exact ⟨h1, h2⟩
      · rw [if_neg hse]
        exact ⟨h1, h2⟩

/-- C8 witness for `step_dot_inv`: the invariant holds on the sample
state and is preserved by a concrete `D` command. -/
theorem step_dot_inv_witness :
    0 ≤ (stepCmd sample0 (.cmdD none (some 2))).1.dot ∧
    (stepCmd sample0 (.cmdD none (some 2))).1.dot
      ≤ endPos (stepCmd sample0 (.cmdD none (some 2))).1 :=
  step_dot_inv sample0 (.cmdD none (some 2)) ⟨by decide, by decide⟩

/-! Toward C5: `buffer.line` against the declarative line-feed list. -/

theorem head?_idxsOf (c : Char) : ∀ l : List Char, (idxsOf c l).head? = findIdx c l := by
  intro l
  induction l with
  | nil => rfl
  | cons a rest ih =>
    rw [idxsOf, findIdx]
    split_ifs with ha
    · rfl
    · rw [List.head?_map, ih]

theorem filter_map_succ (l : List Nat) (p : Nat → Bool) :
    (l.map (· + 1)).filter p = (l.filter (fun i => p (i + 1))).map (· + 1) := by
  induction l with
  | nil => rfl
  | cons a rest ih =>
    simp only [List.map_cons, List.filter_cons]
    split_ifs with hp
    · simp only [List.map_cons, ih]
    · exact ih

theorem idxsOf_ge (c : Char) : ∀ (pos : Nat) (l : List Char),
    (idxsOf c l).filter (fun i => decide (pos ≤ i))
      = (idxsOf c (l.drop pos)).map (· + pos) := by
  intro pos
  induction pos with
  | zero =>
    intro l
    simp only [List.drop_zero]
    rw [List.filter_eq_self.mpr (by intro a _; simp)]
    have : (idxsOf c l).map (· + 0) = (idxsOf c l).map id := by
      apply List.map_congr_left
      intro a _
      rfl
    rw [this, List.map_id]
  | succ pos ih =>
    intro l
    cases l with
    | nil => rfl
    | cons a rest =>
      rw [List.drop_succ_cons, idxsOf]
      split_ifs with ha
      · rw [List.filter_cons]
        rw [if_neg (by simp)]
        rw [filter_map_succ]
        have hcongr : (idxsOf c rest).filter (fun i => decide (pos + 1 ≤ i + 1))
            = (idxsOf c rest).filter (fun i => decide (pos ≤ i)) := by
          apply List.filter_congr
          intro x _
          simp [Nat.succ_le_succ_iff]
        rw [hcongr, ih rest, List.map_map]
        apply List.map_congr_left
        intro x _
        simp only [Function.comp_apply]
        omega
      · rw [filter_map_succ]
        have hcongr : (idxsOf c rest).filter (fun i => decide (pos + 1 ≤ i + 1))
            = (idxsOf c rest).filter (fun i => decide (pos ≤ i)) := by
          apply List.filter_congr
          intro x _
          simp [Nat.succ_le_succ_iff]
        rw [hcongr, ih rest, List.map_map]
        apply List.map_congr_left
        intro x _
        simp only [Function.comp_apply]
        omega

theorem idxsOf_lt (c : Char) : ∀ (pos : Nat) (l : List Char),
    (idxsOf c l).filter (fun i => decide (i < pos)) = idxsOf c (l.take pos) := by
  intro pos
  induction pos with
  | zero =>
    intro l
    rw [List.take_zero]
    rw [List.filter_eq_nil_iff.mpr (by intro a _; simp)]
    rfl
  | succ pos ih =>
    intro l
    cases l with
    | nil => rfl
    | cons a rest =>
      rw [List.take_succ_cons, idxsOf, idxsOf]
      split_ifs with ha
      · rw [List.filter_cons, if_pos (by simp)]
        rw [filter_map_succ]
        have hcongr : (idxsOf c rest).filter (fun i => decide (i + 1 < pos + 1))
            = (idxsOf c rest).filter (fun i => decide (i < pos)) := by
          apply List.filter_congr
          intro x _
          simp [Nat.succ_lt_succ_iff]
        rw [hcongr, ih rest]
      · rw [filter_map_succ]
        have hcongr : (idxsOf c rest).filter (fun i => decide (i + 1 < pos + 1))
            = (idxsOf c rest).filter (fun i => decide (i < pos)) := by
          apply List.filter_congr
          intro x _
          simp [Nat.succ_lt_succ_iff]
        rw [hcongr, ih rest]

theorem idxsOf_pairwise (c : Char) : ∀ l : List Char, (idxsOf c l).Pairwise (· < ·) := by
  intro l
  induction l with
  | nil => exact List.Pairwise.nil
  | cons a rest ih =>
    rw [idxsOf]
    have hmap : ((idxsOf c rest).map (· + 1)).Pairwise (· < ·) := by
      rw [List.pairwise_map]
      exact ih.imp (by omega)
    split_ifs with ha
    · refine List.Pairwise.cons ?_ hmap
      intro b hb
      rcases List.mem_map.mp hb with ⟨x, _, hx⟩
      omega
    · exact hmap

theorem get?_tail (l : List Nat) (j : Nat) : l.get? (j + 1) = l.tail.get? j := by
  cases l <;> rfl

theorem lfsFrom_head (text : List Char) (pos : Nat) :
    (lfsFrom text pos).head? = findFrom text lfCh pos := by
  rw [lfsFrom, findFrom, idxsOf_ge, List.head?_map, head?_idxsOf]

theorem getLast?_decomp : ∀ (l : List Nat) (i : Nat),
    l.getLast? = some i → l = l.dropLast ++ [i] := by
  intro l
  induction l with
  | nil => intro i h; simp at h
  | cons a rest ih =>
    intro i h
    cases rest with
    | nil =>
      simp only [List.getLast?_singleton, Option.some.injEq] at h
      subst h
      rfl
    | cons b rs =>
      rw [List.getLast?_cons_cons] at h
      have h2 := ih i h
      show a :: (b :: rs) = a :: (b :: rs).dropLast ++ [i]
      rw [List.cons_append, ← h2]

theorem getLast?_idxsOf (c : Char) : ∀ l : List Char,
    (idxsOf c l).getLast? = rfindIdx c l := by
  intro l
  induction l with
  | nil => rfl
  | cons a rest ih =>
    rcases hr : rfindIdx c rest with _ | i
    · have hnil : idxsOf c rest = [] :=
        List.getLast?_eq_none_iff.mp (ih.trans hr)
      simp only [idxsOf, rfindIdx, hr, hnil, List.map_nil]
      split_ifs with ha <;> rfl
    · have hT : ((idxsOf c rest).map (· + 1)).getLast? = some (i + 1) := by
        rw [List.getLast?_map, ih, hr]
        rfl
      simp only [idxsOf, rfindIdx, hr]
      split_ifs with ha
      · rcases hXe : idxsOf c rest with _ | ⟨x, xs⟩
        · rw [hXe] at hT
          simp at hT
        · rw [hXe] at hT
          simp only [List.map_cons] at hT ⊢
          rw [List.getLast?_cons_cons]
          exact hT
      · exact hT

theorem lfsBefore_head (text : List Char) (pos : Nat) :
    (lfsBefore text pos).head? = rfindBefore text lfCh pos := by
  rw [lfsBefore, List.head?_reverse, rfindBefore, ← getLast?_idxsOf, ← idxsOf_lt]

theorem lfsFrom_tail (text : List Char) (pos i : Nat)
    (h : findFrom text lfCh pos = some i) :
    lfsFrom text (i + 1) = (lfsFrom text pos).tail := by
  rw [findFrom] at h
  rcases hj : findIdx lfCh (text.drop pos) with _ | j
  · rw [hj] at h; cases h
  · rw [hj] at h
    simp only [Option.map_some', Option.some.injEq] at h
    have hX := head?_idxsOf lfCh (text.drop pos)
    rw [hj] at hX
    rcases hXe : idxsOf lfCh (text.drop pos) with _ | ⟨x, t⟩
    · rw [hXe] at hX; cases hX
    · rw [hXe] at hX
      simp only [List.head?_cons, Option.some.injEq] at hX
      subst hX
      have hfrom : lfsFrom text pos = (idxsOf lfCh (text.drop pos)).map (· + pos) := by
        rw [lfsFrom]; exact idxsOf_ge lfCh pos text
      have hge := idxsOf_ge lfCh (x + 1) (text.drop pos)
      rw [hXe, List.filter_cons, if_neg (by simp)] at hge
      have hpw := idxsOf_pairwise lfCh (text.drop pos)
      rw [hXe] at hpw
      have hall : ∀ y ∈ t, x < y := (List.pairwise_cons.mp hpw).1
      rw [List.filter_eq_self.mpr (by intro y hy; simpa using hall y hy)] at hge
      have hfrom2 : lfsFrom text (i + 1) = (idxsOf lfCh (text.drop (i + 1))).map (· + (i + 1)) := by
        rw [lfsFrom]; exact idxsOf_ge lfCh (i + 1) text
      rw [hfrom2, hfrom, hXe, List.map_cons, List.tail_cons]
      have hdd : text.drop (i + 1) = (text.drop pos).drop (x + 1) := by
        rw [List.drop_drop]
        congr 1
        omega
      rw [hdd, hge, List.map_map]
      apply List.map_congr_left
      intro y _
      simp only [Function.comp_apply]
      omega

theorem lfsBefore_tail (text : List Char) (pos i : Nat)
    (h : rfindBefore text lfCh pos = some i) :
    lfsBefore text i = (lfsBefore text pos).tail := by
  have hF : ((idxsOf lfCh text).filter (fun x => decide (x < pos))).getLast? = some i := by
    rw [idxsOf_lt, getLast?_idxsOf]
    exact h
  have hdec := getLast?_decomp _ i hF
  have hmem : i ∈ (idxsOf lfCh text).filter (fun x => decide (x < pos)) := by
    rw [hdec]
    exact List.mem_append_right _ (List.mem_singleton.mpr rfl)
  have hip : i < pos := by
    have := (List.mem_filter.mp hmem).2
    simpa using this
  have hpwF : ((idxsOf lfCh text).filter (fun x => decide (x < pos))).Pairwise (· < ·) :=
    List.Pairwise.sublist (List.filter_sublist _) (idxsOf_pairwise lfCh text)
  have hlt : ∀ x ∈ ((idxsOf lfCh text).filter (fun x => decide (x < pos))).dropLast, x < i := by
    have hpw2 := hpwF
    rw [hdec] at hpw2
    intro x hx
    exact (List.pairwise_append.mp hpw2).2.2 x hx i (List.mem_singleton.mpr rfl)
  rw [lfsBefore, lfsBefore]
  conv_rhs => rw [hdec]
  rw [List.reverse_append, List.reverse_singleton, List.singleton_append, List.tail_cons]
  congr 1
  have hff : (idxsOf lfCh text).filter (fun x => decide (x < i))
      = ((idxsOf lfCh text).filter (fun x => decide (x < pos))).filter
          (fun x => decide (x < i)) := by
    rw [List.filter_filter]
    apply List.filter_congr
    intro x _
    rcases Nat.lt_or_ge x i with hx | hx
    · simp [hx, Nat.lt_of_lt_of_le hx (Nat.le_of_lt hip)]
    · simp [Nat.not_lt.mpr hx]
  rw [hff]
  conv_lhs => rw [hdec]
  rw [List.filter_append,
    List.filter_eq_self.mpr (by intro x hx; simpa using hlt x hx),
    show ([i].filter (fun x => decide (x < i))) = [] from by simp,
    List.append_nil]

theorem lineFwd_get (text : List Char) : ∀ (j pos : Nat),
    lineFwd text pos (j + 1)
      = (match (lfsFrom text pos).get? j with
         | some i => i + 1
         | none => text.length) := by
  intro j
  induction j with
  | zero =>
    intro pos
    have hh : (lfsFrom text pos).get? 0 = findFrom text lfCh pos := by
      rw [← lfsFrom_head]
      cases lfsFrom text pos <;> rfl
    rcases hf : findFrom text lfCh pos with _ | i <;>
      simp only [lineFwd, hf, hh]
  | succ j ih =>
    intro pos
    have hh := lfsFrom_head text pos
    rcases hf : findFrom text lfCh pos with _ | i
    · have hnil : lfsFrom text pos = [] := by
        rcases hl : lfsFrom text pos with _ | ⟨a, t⟩
        · rfl
        · rw [hl, hf] at hh
          simp at hh
      simp only [lineFwd, hf, hnil]
      rfl
    · have htail := lfsFrom_tail text pos i hf
      have hget : (lfsFrom text pos).get? (j + 1) = (lfsFrom text (i + 1)).get? j := by
        rw [get?_tail, ← htail]
      simp only [lineFwd, hf]
      rw [hget, ← ih (i + 1)]
      rfl

theorem lineBwd_get (text : List Char) : ∀ (j pos : Nat),
    lineBwd text pos (j + 1)
      = (match (lfsBefore text pos).get? j with
         | some i => i + 1
         | none => 0) := by
  intro j
  induction j with
  | zero =>
    intro pos
    have hh : (lfsBefore text pos).get? 0 = rfindBefore text lfCh pos := by
      rw [← lfsBefore_head]
      cases lfsBefore text pos <;> rfl
    rcases hf : rfindBefore text lfCh pos with _ | i <;>
      simp only [lineBwd, hf, hh]
  | succ j ih =>
    intro pos
    have hh := lfsBefore_head text pos
    rcases hf : rfindBefore text lfCh pos with _ | i
    · have hnil : lfsBefore text pos = [] := by
        rcases hl : lfsBefore text pos with _ | ⟨a, t⟩
        · rfl
        · rw [hl, hf] at hh
          simp at hh
      simp only [lineBwd, hf, hnil]
      rfl
    · have htail := lfsBefore_tail text pos i hf
      have hget : (lfsBefore text pos).get? (j + 1) = (lfsBefore text i).get? j := by
        rw [get?_tail, ← htail]
      simp only [lineBwd, hf]
      rw [hget, ← ih i]
      rfl

/-- C5: `buffer.line (linecnt)` returns, for `linecnt > 0`, the position
one past the `linecnt`-th line feed at or after `dot` (or the buffer
length if there are fewer such line feeds), and for `linecnt ≤ 0` the
position one past the `(1 - linecnt)`-th line feed strictly before `dot`,
counting backwards (or 0 if there are fewer such line feeds) - i.e. the
start of the line `|linecnt|` lines above the current one. -/
theorem line_eq_lineSpec (text : List Char) (dot : Nat) (k : Int) :
    line text dot k = lineSpec text dot k := by
  rw [line, lineSpec]
  split_ifs with hk
  · have hk1 : k.toNat = (k.toNat - 1) + 1 := by omega
    conv_lhs => rw [hk1]
    rw [lineFwd_get text (k.toNat - 1) dot]
  · have hk1 : (1 - k).toNat = (-k).toNat + 1 := by omega
    conv_lhs => rw [hk1]
    rw [lineBwd_get text (-k).toNat dot]

end Teco
